import Mathlib

/-!
Verification development for the mkly CLI framework: a shallow embedding of
the command tree (`src/command/index.ts`), the token classifier
(`src/parser/token/index.ts`), the value-coercion subsystem
(`src/parser/value`), the `Time` and `Size` domain value types, and the
resolution engine (`CLI.run`).  JavaScript numbers are idealised as exact
rationals (`ℚ`); external runtime builtins (`new Date`, `Date.now`,
`path.resolve`) are either parameters of the embedding or recorded as opaque
raw data.  All definitions are executable; recursion that is not structural
is driven by an explicit fuel argument bounded by the input length, which is
always sufficient because every step consumes at least one character/token.
-/

namespace Mkly

/-! ### Characters and JS string primitives -/

/-- Left curly brace character (written via code point). -/
def lbr : Char := Char.ofNat 123

/-- Right curly brace character (written via code point). -/
def rbr : Char := Char.ofNat 125

/-- Double-quote character. -/
def dqu : Char := Char.ofNat 34

/-- Single-quote character. -/
def squ : Char := Char.ofNat 39

/-- Backslash character. -/
def bsl : Char := Char.ofNat 92

/-- Dollar sign. -/
def dol : Char := Char.ofNat 36

/-- ASCII decimal digit test (regex `\d`), as membership in the ten digit
characters. -/
def isDigitC (c : Char) : Bool :=
  c ∈ ['0', '1', '2', '3', '4', '5', '6', '7', '8', '9']

/-- ASCII letter test. -/
def isAlphaC (c : Char) : Bool :=
  (decide ('a' ≤ c) && decide (c ≤ 'z')) || (decide ('A' ≤ c) && decide (c ≤ 'Z'))

/-- Regex word character `\w` = `[A-Za-z0-9_]`. -/
def isWordC (c : Char) : Bool := isAlphaC c || isDigitC c || decide (c = '_')

/-- Whitespace recognised by JavaScript `String.prototype.trim` and `\s`
(ASCII part plus NBSP, BOM and the Unicode line separators). -/
def isJsWs (c : Char) : Bool :=
  decide (c = ' ') || decide (c = Char.ofNat 9) || decide (c = Char.ofNat 10) ||
  decide (c = Char.ofNat 11) || decide (c = Char.ofNat 12) || decide (c = Char.ofNat 13) ||
  decide (c = Char.ofNat 160) || decide (c = Char.ofNat 65279) ||
  decide (c = Char.ofNat 8232) || decide (c = Char.ofNat 8233)

/-- ASCII lowercase conversion (the unit letters handled by the sources are
ASCII, which is the fragment of `toLowerCase` they exercise). -/
def toLowerC (c : Char) : Char :=
  if decide ('A' ≤ c) && decide (c ≤ 'Z') then Char.ofNat (c.toNat + 32) else c

/-- `String.prototype.trim` on a character list. -/
def jsTrimL (cs : List Char) : List Char :=
  ((cs.dropWhile isJsWs).reverse.dropWhile isJsWs).reverse

/-- `String.prototype.trim`. -/
def jsTrim (s : String) : String := String.mk (jsTrimL s.data)

/-- First component of `split(/=(.*)/s)`: the characters before the first
`=`, or the whole list when there is none. -/
def beforeEq : List Char → List Char
  | [] => []
  | c :: r => if c = '=' then [] else c :: beforeEq r

/-- Second component of `split(/=(.*)/s)`: everything after the first `=`
(empty when there is no `=`). -/
def afterEq : List Char → List Char
  | [] => []
  | c :: r => if c = '=' then r else afterEq r

/-! ### Digits and rational numerals -/

/-- Value of a digit character. -/
def digitVal (c : Char) : Nat := c.toNat - 48

/-- Value of a list of decimal digits. -/
def digitsToNat (ds : List Char) : Nat := ds.foldl (fun a c => 10 * a + digitVal c) 0

/-- Greedy `\d+`-style span: the longest digit prefix and the rest. -/
def takeDigits : List Char → List Char × List Char
  | [] => ([], [])
  | c :: r =>
    if isDigitC c then
      let p := takeDigits r
      (c :: p.1, p.2)
    else ([], c :: r)

/-- Rational value of `intDs` followed by an optional fraction `fracDs`
(empty `fracDs` means no fraction part), as JavaScript `Number` would
produce on the exact decimal - idealised without floating-point rounding. -/
def decValue (intDs fracDs : List Char) : ℚ :=
  (digitsToNat intDs : ℚ) + (digitsToNat fracDs : ℚ) / ((10 : ℚ) ^ fracDs.length)

/-- Matcher for the numeric group `(\d+(?:\.\d+)?)` applied at the head of
the input: returns the value and the remaining characters, or `none` when
the input does not start with a digit.  Greedy matching needs no
backtracking here because the characters that may legally follow the group
in every regex of the sources are letters, never digits or `.`. -/
def matchNumber (cs : List Char) : Option (ℚ × List Char) :=
  match takeDigits cs with
  | ([], _) => none
  | (ds, rest) =>
    match rest with
    | c :: r2 =>
      if c = '.' then
        match takeDigits r2 with
        | ([], _) => some (decValue ds [], rest)
        | (fs, r3) => some (decValue ds fs, r3)
      else some (decValue ds [], rest)
    | [] => some (decValue ds [], [])

/-! ### JSON values (results of `JSON.parse`) -/

/-- Plain JSON data as produced by the strict `JSON.parse` and consumed by
`sanitizeObject` (`src/parser/value/utils/parse-json.ts`).  Objects keep
entries in insertion order with duplicate keys already collapsed
(last value wins), as `JSON.parse` does. -/
inductive Json where
  | null : Json
  | bool (b : Bool) : Json
  | num (q : ℚ) : Json
  | str (s : String) : Json
  | arr (xs : List Json) : Json
  | obj (es : List (String × Json)) : Json

/-- `Object.entries`-style insertion with `JSON.parse` duplicate-key
semantics: an existing key keeps its position but receives the new value. -/
def objInsert (es : List (String × Json)) (k : String) (v : Json) :
    List (String × Json) :=
  match es with
  | [] => [(k, v)]
  | (k0, v0) :: r => if k0 = k then (k0, v) :: r else (k0, v0) :: objInsert r k v

/-! ### Coercion failures (`ParsingError` sites of the value subsystem) -/

/-- One constructor per `ParsingError`/`TypeError` throw site of the value
coercion subsystem, carrying the discriminating data of the site. -/
inductive ParseErr where
  | invalidBoolean (input : String)
  | invalidNumber (input : String)
  | invalidChoice (input : String) (choices : List String)
  | emptyList (input : String)
  | unsafeJsObject (input : String)
  | invalidJsonKey (key : String)
  | invalidJsonValueType
  | invalidObjectSyntax (input : String)
  | invalidRootValue
  | sanitizeDepth
  | timeEmpty
  | invalidTimeFormat (input : String)
  | sizeEmptyTypeError
  | invalidSizeFormat (input : String)
  | pathEmpty

/-! ### Strict JSON parsing (model of the external `JSON.parse` builtin) -/

/-- JSON insignificant whitespace (space, tab, LF, CR). -/
def isJsonWs (c : Char) : Bool :=
  decide (c = ' ') || decide (c = Char.ofNat 9) ||
  decide (c = Char.ofNat 10) || decide (c = Char.ofNat 13)

/-- Skip JSON whitespace. -/
def skipWs (cs : List Char) : List Char := cs.dropWhile isJsonWs

/-- Hexadecimal digit value, if any. -/
def hexVal (c : Char) : Option Nat :=
  if isDigitC c then some (c.toNat - 48)
  else if decide ('a' ≤ c) && decide (c ≤ 'f') then some (c.toNat - 87)
  else if decide ('A' ≤ c) && decide (c ≤ 'F') then some (c.toNat - 70)
  else none

/-- JSON string body after the opening quote, with the standard escapes;
returns the decoded characters and the rest after the closing quote.
(`\u` escapes are decoded with `Char.ofNat`; lone surrogate escapes, which
no claim exercises, degrade to the null character.) -/
def jsonStrF : Nat → List Char → Option (List Char × List Char)
  | 0, _ => none
  | _ + 1, [] => none
  | f + 1, c :: r =>
    if c = dqu then some ([], r)
    else if c = bsl then
      match r with
      | [] => none
      | e :: r2 =>
        if e = dqu ∨ e = bsl ∨ e = '/' then
          (jsonStrF f r2).map (fun p => (e :: p.1, p.2))
        else if e = 'b' then (jsonStrF f r2).map (fun p => (Char.ofNat 8 :: p.1, p.2))
        else if e = 'f' then (jsonStrF f r2).map (fun p => (Char.ofNat 12 :: p.1, p.2))
        else if e = 'n' then (jsonStrF f r2).map (fun p => (Char.ofNat 10 :: p.1, p.2))
        else if e = 'r' then (jsonStrF f r2).map (fun p => (Char.ofNat 13 :: p.1, p.2))
        else if e = 't' then (jsonStrF f r2).map (fun p => (Char.ofNat 9 :: p.1, p.2))
        else if e = 'u' then
          match r2 with
          | h1 :: h2 :: h3 :: h4 :: r3 =>
            match hexVal h1, hexVal h2, hexVal h3, hexVal h4 with
            | some a, some b, some c2, some d =>
              (jsonStrF f r3).map
                (fun p => (Char.ofNat (((a * 16 + b) * 16 + c2) * 16 + d) :: p.1, p.2))
            | _, _, _, _ => none
          | _ => none
        else none
    else if c.toNat < 32 then none
    else (jsonStrF f r).map (fun p => (c :: p.1, p.2))

/-- JSON string starting at the opening quote's successor, with fuel by
length (each step consumes at least one character). -/
def jsonStr (cs : List Char) : Option (List Char × List Char) :=
  jsonStrF (cs.length + 1) cs

/-- JSON number grammar `-?int frac? exp?` with `int = 0 | [1-9][0-9]*`,
valued exactly in `ℚ`. -/
def jsonNumber (cs : List Char) : Option (ℚ × List Char) :=
  let sgn : Bool × List Char := match cs with | '-' :: r => (true, r) | _ => (false, cs)
  match takeDigits sgn.2 with
  | ([], _) => none
  | (ds, r1) =>
    if 1 < ds.length ∧ ds.headI = '0' then none
    else
      let fr : Option (List Char × List Char) :=
        match r1 with
        | '.' :: rr =>
          match takeDigits rr with
          | ([], _) => none
          | (fs, r2) => some (fs, r2)
        | _ => some ([], r1)
      match fr with
      | none => none
      | some (fs, r2) =>
        let ex : Option (Int × List Char) :=
          match r2 with
          | e :: rr =>
            if e = 'e' ∨ e = 'E' then
              let es : Bool × List Char :=
                match rr with
                | '+' :: r3 => (false, r3)
                | '-' :: r3 => (true, r3)
                | _ => (false, rr)
              match takeDigits es.2 with
              | ([], _) => none
              | (eds, r3) =>
                some (if es.1 then -(digitsToNat eds : Int) else (digitsToNat eds : Int), r3)
            else some (0, r2)
          | [] => some (0, r2)
        match ex with
        | none => none
        | some (e, r3) =>
          let base := decValue ds fs * (10 : ℚ) ^ e
          some (if sgn.1 then -base else base, r3)

/-- Object members (after the opening brace and leading whitespace, first
member pending); `pv` parses one value.  Returns members in parse order,
duplicates preserved. -/
def jsonMembersF (pv : List Char → Option (Json × List Char)) :
    Nat → List Char → Option (List (String × Json) × List Char)
  | 0, _ => none
  | f + 1, cs =>
    match cs with
    | c :: r =>
      if c = dqu then
        match jsonStr r with
        | some (k, r2) =>
          match skipWs r2 with
          | ':' :: r4 =>
            match pv r4 with
            | some (v, r5) =>
              match skipWs r5 with
              | ',' :: r7 =>
                (jsonMembersF pv f (skipWs r7)).map
                  (fun p => ((String.mk k, v) :: p.1, p.2))
              | b :: r7 =>
                if b = rbr then some ([(String.mk k, v)], r7) else none
              | [] => none
            | none => none
          | _ => none
        | none => none
      else none
    | [] => none

/-- Array elements (after the opening bracket and leading whitespace, first
element pending). -/
def jsonElemsF (pv : List Char → Option (Json × List Char)) :
    Nat → List Char → Option (List Json × List Char)
  | 0, _ => none
  | f + 1, cs =>
    match pv cs with
    | some (v, r) =>
      match skipWs r with
      | ',' :: r2 => (jsonElemsF pv f r2).map (fun p => (v :: p.1, p.2))
      | ']' :: r2 => some ([v], r2)
      | _ => none
    | none => none

/-- Collapse duplicate object keys with `JSON.parse` semantics: first
occurrence keeps its position, the last value wins. -/
def dedupeMembers (es : List (String × Json)) : List (String × Json) :=
  es.foldl (fun acc kv => objInsert acc kv.1 kv.2) []

/-- JSON value parser (fueled; the fuel used by `jsonParseStrict` exceeds
any possible nesting/member count because each level consumes characters). -/
def jsonValF : Nat → List Char → Option (Json × List Char)
  | 0, _ => none
  | f + 1, cs =>
    match skipWs cs with
    | [] => none
    | c :: r =>
      if c = lbr then
        match skipWs r with
        | b :: r2 =>
          if b = rbr then some (.obj [], r2)
          else
            (jsonMembersF (jsonValF f) f (skipWs r)).map
              (fun p => (.obj (dedupeMembers p.1), p.2))
        | [] => none
      else if c = '[' then
        match skipWs r with
        | ']' :: r2 => some (.arr [], r2)
        | _ => (jsonElemsF (jsonValF f) f (skipWs r)).map (fun p => (.arr p.1, p.2))
      else if c = dqu then
        (jsonStr r).map (fun p => (.str (String.mk p.1), p.2))
      else if c = 't' then
        match r with | 'r' :: 'u' :: 'e' :: r2 => some (.bool true, r2) | _ => none
      else if c = 'f' then
        match r with | 'a' :: 'l' :: 's' :: 'e' :: r2 => some (.bool false, r2) | _ => none
      else if c = 'n' then
        match r with | 'u' :: 'l' :: 'l' :: r2 => some (.null, r2) | _ => none
      else
        (jsonNumber (c :: r)).map (fun p => (.num p.1, p.2))

/-- Model of the external strict `JSON.parse`: a complete JSON text with
nothing but whitespace after the value. -/
def jsonParseStrict (s : String) : Option Json :=
  match jsonValF (s.length + 1) s.data with
  | some (v, rest) => if skipWs rest = [] then some v else none
  | none => none

/-! ### `src/parser/value/utils/parse-json.ts` -/

/-- The words of the `FORBIDDEN_TOKENS` regex. -/
def forbiddenWords : List (List Char) :=
  [String.data "function", String.data "class", String.data "new", String.data "return",
   String.data "process", String.data "require", String.data "im" ++ String.data "port",
   String.data "ex" ++ String.data "port", String.data "eval", String.data "this",
   String.data "global", String.data "window"]

/-- Strip a literal word from the front of a character list. -/
def stripWord : List Char → List Char → Option (List Char)
  | [], cs => some cs
  | _ :: _, [] => none
  | w :: ws, c :: cs => if c = w then stripWord ws cs else none

/-- One position of the `FORBIDDEN_TOKENS` test: some word matches here with
a word boundary on each side (`prev` is the preceding character, if any). -/
def forbiddenAt (prev : Option Char) (cs : List Char) : Bool :=
  (match prev with | none => true | some p => !isWordC p) &&
    forbiddenWords.any (fun w =>
      match stripWord w cs with
      | some rest => match rest with | [] => true | c :: _ => !isWordC c
      | none => false)

/-- Scan for `hasForbiddenToken`, tracking the previous character. -/
def hasForbiddenTokenGo : Option Char → List Char → Bool
  | _, [] => false
  | prev, c :: r => forbiddenAt prev (c :: r) || hasForbiddenTokenGo (some c) r

/-- `FORBIDDEN_TOKENS.test(input)`: some position carries a forbidden word
between word boundaries. -/
def hasForbiddenToken (cs : List Char) : Bool :=
  hasForbiddenTokenGo none cs

/-- `replace(/^\(/, '')` then `replace(/\)$/, '')`. -/
def stripParens (cs : List Char) : List Char :=
  let a := match cs with | '(' :: r => r | _ => cs
  match a.reverse with
  | ')' :: rr => rr.reverse
  | _ => a

/-- Matcher for `\s*([a-zA-Z_$][\w$]*)\s*:` directly after a `{` or `,`;
returns the leading whitespace, the identifier and the rest after the
colon. -/
def tryKeyMatch (cs : List Char) : Option (List Char × List Char × List Char) :=
  let ws := cs.takeWhile isJsWs
  match cs.dropWhile isJsWs with
  | c :: r2 =>
    if isAlphaC c || decide (c = '_') || decide (c = dol) then
      let idTail := r2.takeWhile (fun d => isWordC d || decide (d = dol))
      match (r2.dropWhile (fun d => isWordC d || decide (d = dol))).dropWhile isJsWs with
      | ':' :: r5 => some (ws, c :: idTail, r5)
      | _ => none
    else none
  | [] => none

/-- Global replacement `([{,]\s*)([a-zA-Z_$][\w$]*)\s*:` → `$1"$2":`
(fuel by length: every step consumes at least one character). -/
def quoteKeysF : Nat → List Char → List Char
  | 0, cs => cs
  | _ + 1, [] => []
  | f + 1, c :: rest =>
    if c = lbr || c = ',' then
      match tryKeyMatch rest with
      | some (ws, ident, r) =>
        c :: (ws ++ (dqu :: ident) ++ (dqu :: ':' :: quoteKeysF f r))
      | none => c :: quoteKeysF f rest
    else c :: quoteKeysF f rest

/-- Global replacement `,(\s*[}\]])` → `$1`. -/
def dropTrailingCommasF : Nat → List Char → List Char
  | 0, cs => cs
  | _ + 1, [] => []
  | f + 1, c :: rest =>
    if c = ',' then
      let ws := rest.takeWhile isJsWs
      match rest.dropWhile isJsWs with
      | b :: r2 =>
        if b = rbr || decide (b = ']') then ws ++ (b :: dropTrailingCommasF f r2)
        else c :: dropTrailingCommasF f rest
      | [] => c :: dropTrailingCommasF f rest
    else c :: dropTrailingCommasF f rest

/-- `jsObjectToJson` (`parse-json.ts`): reject inputs holding a forbidden
token, then normalise object-literal syntax to JSON text. -/
def jsObjectToJson (input : String) : Except ParseErr String :=
  if hasForbiddenToken input.data then .error (.unsafeJsObject input)
  else
    let a := (stripParens (jsTrimL input.data)).map (fun c => if c = squ then dqu else c)
    let b := quoteKeysF a.length a
    .ok (String.mk (dropTrailingCommasF b.length b))

/-- The `FORBIDDEN_KEYS` set. -/
def forbiddenKeys : List String := ["__proto__", "prototype", "constructor"]

/-- `sanitizeObject` on the entries of a plain object.  The source walks
`Object.entries`, rejects forbidden keys, keeps arrays as they are,
recurses into plain objects and copies primitives; in the `Json` model
every non-array object value is plain, so the `Invalid value type` branch
is unrepresentable.  Fuel is structural and strictly exceeds the entry and
nesting count of anything produced by `jsonParseStrict` from the input. -/
def sanitizeEntriesF : Nat → List (String × Json) → Except ParseErr (List (String × Json))
  | 0, _ => .error .sanitizeDepth
  | _ + 1, [] => .ok []
  | f + 1, (k, v) :: rest =>
    if k ∈ forbiddenKeys then .error (.invalidJsonKey k)
    else
      match v with
      | .obj es =>
        match sanitizeEntriesF f es with
        | .error e => .error e
        | .ok es2 =>
          match sanitizeEntriesF f rest with
          | .error e => .error e
          | .ok rest2 => .ok ((k, Json.obj es2) :: rest2)
      | other =>
        match sanitizeEntriesF f rest with
        | .error e => .error e
        | .ok rest2 => .ok ((k, other) :: rest2)

/-- The parse phase of `parseJson` (`parse-json.ts`): strict parse, else
object-literal normalisation and reparse; any failure on the fallback path
(including the forbidden-token rejection) is reported as invalid object
syntax by the surrounding `catch`. -/
def parseJsonRaw (input : String) : Except ParseErr Json :=
  match jsonParseStrict input with
  | some v => .ok v
  | none =>
    match jsObjectToJson input with
    | .ok normalized =>
      match jsonParseStrict normalized with
      | some v => .ok v
      | none => .error (.invalidObjectSyntax input)
    | .error _ => .error (.invalidObjectSyntax input)

/-- `parseJson` (`parse-json.ts`): the parse phase, then the plain-object
root check, then recursive sanitisation. -/
def parseJson (input : String) : Except ParseErr Json :=
  match parseJsonRaw input with
  | .error e => .error e
  | .ok (.obj es) =>
    match sanitizeEntriesF (input.length + 1) es with
    | .error e => .error e
    | .ok es2 => .ok (.obj es2)
  | .ok _ => .error .invalidRootValue

/-! ### Scalar parsers (`parse-boolean`, `parse-number`, `parse-choice`,
`parse-list`) -/

/-- `TRUE_VALUES` (`src/parser/value/constants.ts`). -/
def TRUE_VALUES : List String := ["true", "1", "yes", "on"]

/-- `FALSE_VALUES` (`src/parser/value/constants.ts`). -/
def FALSE_VALUES : List String := ["false", "0", "no", "off"]

/-- `parseBoolean`: trim, lowercase, compare against the two constant
lists. -/
def parseBoolean (input : String) : Except ParseErr Bool :=
  let trimmed := String.mk ((jsTrimL input.data).map toLowerC)
  if trimmed ∈ TRUE_VALUES then .ok true
  else if trimmed ∈ FALSE_VALUES then .ok false
  else .error (.invalidBoolean input)

/-- Model of the external ECMAScript `Number(string)` conversion on its
decimal fragment: trimmed empty text is `0`; otherwise an optional sign,
then either digits with an optional fraction or a bare fraction, with an
optional decimal exponent, valued exactly in `ℚ`; `none` models `NaN`.
(The hexadecimal/octal/binary and `Infinity` forms are not exercised by any
claim and are outside this model.) -/
def jsStrToNumber (s : String) : Option ℚ :=
  let cs := jsTrimL s.data
  match cs with
  | [] => some 0
  | _ =>
    let sgn : Bool × List Char :=
      match cs with
      | '-' :: r => (true, r)
      | '+' :: r => (false, r)
      | _ => (false, cs)
    let mantissa : Option (ℚ × List Char) :=
      match takeDigits sgn.2 with
      | ([], rest) =>
        match rest with
        | '.' :: rr =>
          match takeDigits rr with
          | ([], _) => none
          | (fs, r2) => some (decValue [] fs, r2)
        | _ => none
      | (ds, rest) =>
        match rest with
        | '.' :: rr =>
          match takeDigits rr with
          | ([], r2) => some (decValue ds [], r2)
          | (fs, r2) => some (decValue ds fs, r2)
        | _ => some (decValue ds [], rest)
    match mantissa with
    | none => none
    | some (m, rest) =>
      let ex : Option (Int × List Char) :=
        match rest with
        | e :: rr =>
          if e = 'e' ∨ e = 'E' then
            let es : Bool × List Char :=
              match rr with
              | '+' :: r3 => (false, r3)
              | '-' :: r3 => (true, r3)
              | _ => (false, rr)
            match takeDigits es.2 with
            | ([], _) => none
            | (eds, r3) =>
              some (if es.1 then -(digitsToNat eds : Int) else (digitsToNat eds : Int), r3)
          else none
        | [] => some (0, [])
      match ex with
      | none => none
      | some (e, r3) =>
        if r3 = [] then some ((if sgn.1 then -m else m) * (10 : ℚ) ^ e) else none

/-- `parseNumber` (`parse-number.ts`): `Number(input)`, failing on `NaN`. -/
def parseNumber (input : String) : Except ParseErr ℚ :=
  match jsStrToNumber input with
  | some n => .ok n
  | none => .error (.invalidNumber input)

/-- `parseChoice` (`parse-choice.ts`): the trimmed input must be a member of
the supplied choice set. -/
def parseChoice (input : String) (choices : List String) : Except ParseErr String :=
  let trimmed := jsTrim input
  if trimmed ∈ choices then .ok trimmed
  else .error (.invalidChoice input choices)

/-- JavaScript `split(',')` on a character list. -/
def splitCommas (cs : List Char) : List (List Char) :=
  match cs with
  | [] => [[]]
  | c :: r =>
    let p := splitCommas r
    if c = ',' then [] :: p
    else
      match p with
      | [] => [[c]]
      | h :: t => (c :: h) :: t

/-- `parseList` (`parse-list.ts`): trim, unwrap one pair of surrounding
brackets, reject empty text, split on commas, trim elements, drop empty
elements. -/
def parseList (input : String) : Except ParseErr (List String) :=
  let trimmed := jsTrimL input.data
  let list :=
    match trimmed with
    | '[' :: r =>
      match r.reverse with
      | ']' :: rr => rr.reverse
      | _ => trimmed
    | _ => trimmed
  if list = [] then .error (.emptyList input)
  else .ok (((splitCommas list).map (fun e => String.mk (jsTrimL e))).filter
    (fun e => e ≠ ""))

/-! ### `Size` (`src/values`, byte sizes) -/

/-- The six byte-size units. -/
inductive SizeUnit where
  | b | kb | mb | gb | tb | pb
deriving DecidableEq

/-- Exponent of 1024 for a unit. -/
def SizeUnit.pow : SizeUnit → Nat
  | .b => 0 | .kb => 1 | .mb => 2 | .gb => 3 | .tb => 4 | .pb => 5

/-- Canonical (lowercase) spelling of a unit. -/
def SizeUnit.chars : SizeUnit → List Char
  | .b => ['b'] | .kb => ['k', 'b'] | .mb => ['m', 'b']
  | .gb => ['g', 'b'] | .tb => ['t', 'b'] | .pb => ['p', 'b']

/-- Recognise a (lowercased) unit spelling exactly. -/
def sizeUnitOf (ls : List Char) : Option SizeUnit :=
  if ls = ['b'] then some .b
  else if ls = ['k', 'b'] then some .kb
  else if ls = ['m', 'b'] then some .mb
  else if ls = ['g', 'b'] then some .gb
  else if ls = ['t', 'b'] then some .tb
  else if ls = ['p', 'b'] then some .pb
  else none

/-- Anchored match of `/^(\d+(?:\.\d+)?)(b|kb|mb|gb|tb|pb)$/i` on an
(already trimmed) character list: the numeric group at the head, then the
rest must be exactly a unit, case-insensitively. -/
def sizeMatch (cs : List Char) : Option (ℚ × SizeUnit) :=
  match matchNumber cs with
  | none => none
  | some (q, r) =>
    match sizeUnitOf (r.map toLowerC) with
    | none => none
    | some u => some (q, u)

/-- `Size.parseToBytes`: trimmed anchored match, then `value * 1024 ** k`
(`switch` over the lowercased unit; the defensive `default` branch is
unreachable because `sizeMatch` only yields the six units). -/
def parseToBytes (input : String) : Except ParseErr ℚ :=
  match sizeMatch (jsTrimL input.data) with
  | none => .error (.invalidSizeFormat input)
  | some (v, u) => .ok (v * (1024 : ℚ) ^ u.pow)

/-- The `Size` constructor: reject empty (trimmed) input with a
`TypeError`, then parse to bytes. -/
def sizeMake (input : String) : Except ParseErr ℚ :=
  if jsTrim input = "" then .error .sizeEmptyTypeError
  else parseToBytes input

/-! ### `Time` (`src/values`, durations and dates) -/

/-- The duration units of the regex `(ms|s|m|h|d|w|mo|y)`.  The `mo`
alternative can never be selected because the earlier `m` alternative
matches first; it is kept to mirror `unitToMs` exactly. -/
inductive TimeUnit where
  | ms | s | m | h | d | w | mo | y
deriving DecidableEq

/-- `Time.unitToMs` (the defensive `default` throw is unreachable: every
scanned unit is one of the eight constructors). -/
def unitToMs : TimeUnit → ℚ
  | .ms => 1
  | .s => 1000
  | .m => 60000
  | .h => 3600000
  | .d => 86400000
  | .w => 604800000
  | .mo => 2629800000
  | .y => 31557600000

/-- Unit alternation `(ms|s|m|h|d|w|mo|y)` in regex order: `ms` is tried
before `s` and `m`, so an `m` followed by `s` is the millisecond unit; the
`mo` alternative is shadowed by `m` and can never be selected. -/
def matchTimeUnit : List Char → Option (TimeUnit × List Char)
  | [] => none
  | c :: r =>
    if c = 'm' then
      match r with
      | c2 :: r2 => if c2 = 's' then some (.ms, r2) else some (.m, c2 :: r2)
      | [] => some (.m, [])
    else if c = 's' then some (.s, r)
    else if c = 'h' then some (.h, r)
    else if c = 'd' then some (.d, r)
    else if c = 'w' then some (.w, r)
    else if c = 'y' then some (.y, r)
    else none

/-- One match of `(\d+(?:\.\d+)?)(ms|s|m|h|d|w|mo|y)` at the current
position. -/
def matchSeg (cs : List Char) : Option ((ℚ × TimeUnit) × List Char) :=
  match matchNumber cs with
  | none => none
  | some (q, r) =>
    match matchTimeUnit r with
    | none => none
    | some (u, r2) => some ((q, u), r2)

/-- The `exec` loop of `Time.parseDuration` with the `g` flag: find every
(leftmost, non-overlapping) match, resuming after each match.  Fuel by
length: every step consumes at least one character. -/
def scanDurF : Nat → List Char → List (ℚ × TimeUnit)
  | 0, _ => []
  | _ + 1, [] => []
  | f + 1, c :: rest =>
    match matchSeg (c :: rest) with
    | some (seg, r2) => seg :: scanDurF f r2
    | none => scanDurF f rest

/-- `Time.parseDuration`: total milliseconds of all scanned segments, or
`null` when no segment matched anywhere. -/
def parseDuration (input : String) : Option ℚ :=
  let segs := scanDurF input.data.length input.data
  if segs = [] then none
  else some ((segs.map (fun p => p.1 * unitToMs p.2)).sum)

/-- Date-string normalisation of `Time.parseDate`: `/` becomes `-`, and a
leading `DD-MM-YY(YY)` is reordered (a two-digit year is expanded into the
2000s). -/
def normalizeDateStr (cs : List Char) : List Char :=
  let dashed := cs.map (fun c => if c = '/' then '-' else c)
  match dashed with
  | d1 :: d2 :: '-' :: m1 :: m2 :: '-' :: rest =>
    if isDigitC d1 && isDigitC d2 && isDigitC m1 && isDigitC m2 then
      match rest with
      | y1 :: y2 :: y3 :: y4 :: tl =>
        if isDigitC y1 && isDigitC y2 && isDigitC y3 && isDigitC y4 then
          [y1, y2, y3, y4, '-', m1, m2, '-', d1, d2] ++ tl
        else if isDigitC y1 && isDigitC y2 && isDigitC y3 then
          [y1, y2, y3, '-', m1, m2, '-', d1, d2] ++ y4 :: tl
        else if isDigitC y1 && isDigitC y2 then
          ['2', '0', y1, y2, '-', m1, m2, '-', d1, d2] ++ y3 :: y4 :: tl
        else dashed
      | y1 :: y2 :: y3 :: tl =>
        if isDigitC y1 && isDigitC y2 && isDigitC y3 then
          [y1, y2, y3, '-', m1, m2, '-', d1, d2] ++ tl
        else if isDigitC y1 && isDigitC y2 then
          ['2', '0', y1, y2, '-', m1, m2, '-', d1, d2] ++ y3 :: tl
        else dashed
      | [y1, y2] =>
        if isDigitC y1 && isDigitC y2 then
          ['2', '0', y1, y2, '-', m1, m2, '-', d1, d2]
        else dashed
      | _ => dashed
    else dashed
  | _ => dashed

/-- `Time.parseDate`, parameterised by the external `new Date(...)` parser
`jd` (returning the epoch milliseconds of a recognised date string) and the
external `Date.now()` value `now`: milliseconds until the date, or `null`. -/
def timeParseDate (jd : String → Option ℚ) (now : ℚ) (input : String) : Option ℚ :=
  (jd (String.mk (normalizeDateStr input.data))).map (fun t => t - now)

/-- `Time.parseToMs`: trim, try the date interpretation first, then the
duration interpretation, else fail. -/
def parseToMs (jd : String → Option ℚ) (now : ℚ) (input : String) : Except ParseErr ℚ :=
  let trimmed := jsTrim input
  match timeParseDate jd now trimmed with
  | some dateMs => .ok dateMs
  | none =>
    match parseDuration trimmed with
    | some durationMs => .ok durationMs
    | none => .error (.invalidTimeFormat input)

/-- The `Time` constructor: reject empty (trimmed) input, then parse. -/
def timeMake (jd : String → Option ℚ) (now : ℚ) (input : String) : Except ParseErr ℚ :=
  if jsTrim input = "" then .error .timeEmpty
  else parseToMs jd now input

/-! ### Value kinds and coerced values (`src/parser/value`) -/

/-- The closed `ValueKey` enumeration (`src/parser/value/types.ts`). -/
inductive ValueKey where
  | boolean | string | number | choice | path | time | size | json
  | booleanArray | stringArray | numberArray | pathArray | timeArray | sizeArray
deriving DecidableEq

/-- Runtime values bound into the `args`/`options` records.  `vPath` keeps
the raw input (its resolved absolute form is an external `path.resolve`
query, out of the engine's scope); `vTime`/`vSize` keep both the raw string
and the normalised numeric value, like the `Time`/`Size` classes. -/
inductive JsValue where
  | vBool (b : Bool)
  | vStr (s : String)
  | vNum (q : ℚ)
  | vPath (raw : String)
  | vTime (raw : String) (ms : ℚ)
  | vSize (raw : String) (bytes : ℚ)
  | vJson (j : Json)
  | vArr (xs : List JsValue)

/-- `parseValue` (`src/parser/value/index.ts`): exhaustive dispatch over the
value kind.  The external date parser `jd` and clock value `now` feed the
`time` kinds; the `default` throw of the source `switch` is unreachable
because `ValueKey` is closed. -/
def parseValue (jd : String → Option ℚ) (now : ℚ) (type : ValueKey) (value : String)
    (choices : List String) : Except ParseErr JsValue :=
  match type with
  | .boolean => (parseBoolean value).map .vBool
  | .choice => (parseChoice value choices).map .vStr
  | .string => .ok (.vStr value)
  | .number => (parseNumber value).map .vNum
  | .path => if jsTrim value = "" then .error .pathEmpty else .ok (.vPath value)
  | .time => (timeMake jd now value).map (.vTime value)
  | .size => (sizeMake value).map (.vSize value)
  | .json => (parseJson value).map .vJson
  | .booleanArray => do
    let es ← parseList value
    let bs ← es.mapM parseBoolean
    return .vArr (bs.map .vBool)
  | .numberArray => do
    let es ← parseList value
    let ns ← es.mapM parseNumber
    return .vArr (ns.map .vNum)
  | .pathArray => do
    let es ← parseList value
    let ps ← es.mapM (fun v =>
      if jsTrim v = "" then (.error .pathEmpty : Except ParseErr JsValue)
      else .ok (.vPath v))
    return .vArr ps
  | .timeArray => do
    let es ← parseList value
    let ts ← es.mapM (fun v => (timeMake jd now v).map (JsValue.vTime v))
    return .vArr ts
  | .sizeArray => do
    let es ← parseList value
    let ss ← es.mapM (fun v => (sizeMake v).map (JsValue.vSize v))
    return .vArr ss
  | .stringArray => do
    let es ← parseList value
    return .vArr (es.map (fun v => .vStr (jsTrim v)))

/-! ### Argument and option definitions (`src/command/types.ts`) -/

/-- A positional-argument definition after the `DEFAULT_ARGUMENT` spread.
The defaults file is not part of the sources; per the spec (§3,
"Modelled from the spec: `type` ... default boolean"), a merged definition
always carries a kind, `optional` defaults to false and no default value or
choices are present unless declared. -/
structure ArgumentDef where
  type : ValueKey := .boolean
  optional : Bool := false
  defaultValue : Option JsValue := none
  choices : List String := []

/-- An option definition after the `DEFAULT_OPTION` spread (same modelling
note as `ArgumentDef`), plus the `alias` list (named `aliasList` here
because `alias` is a reserved command name in the proof language). -/
structure OptionDef where
  type : ValueKey := .boolean
  optional : Bool := false
  defaultValue : Option JsValue := none
  choices : List String := []
  aliasList : List String := []

/-- `coerceArgument(arg, raw, choices)` with a genuine definition object:
the definition always carries a kind (see `ArgumentDef`), so the
`arg.type ? parseValue(...) : raw` guard takes the parse branch. -/
def coerceArgument (jd : String → Option ℚ) (now : ℚ) (arg : ArgumentDef)
    (raw : String) (choices : List String) : Except ParseErr JsValue :=
  parseValue jd now arg.type raw choices

/-- `coerceOption(opt, raw, choices)` with a genuine definition object and a
string raw value (the `typeof raw === 'boolean'` early return concerns the
defaulting call site, embedded separately as `coerceDefValue`). -/
def coerceOption (jd : String → Option ℚ) (now : ℚ) (opt : OptionDef)
    (raw : String) (choices : List String) : Except ParseErr JsValue :=
  parseValue jd now opt.type raw choices

/-- The defaulting steps of `CLI.run` call `coerceArgument(arg.type,
arg.defaultValue)` and `coerceOption(opt.type, opt.defaultValue)`: the
value-kind *string* is passed where the coercion functions expect the
definition object.  In JavaScript a string has no `.type` property, so the
`arg.type ? parseValue(...) : raw` guard is undefined-falsy (after the
boolean early-return, which also returns the raw value), and the raw
default value is returned unchanged in every case. -/
def coerceDefValue (_typeOfDef : ValueKey) (defaultValue : JsValue) : JsValue :=
  defaultValue

/-! ### Token classifier (`src/parser/token`) -/

/-- `ParsedArguments` (`src/parser/token/types.ts`): the normalised
classification of one raw token. -/
structure ParsedTok where
  key : Option String := none
  value : Option String := none
  isFlag : Bool := false
  isNegation : Bool := false
  isEndOfFlags : Bool := false
  original : String := ""

/-- `parseToken` (`src/parser/token/index.ts`), with the updated constants
of `src/parser/token/constants.ts` (`ALIAS_WITH_VALUE = /^-(\w+)=(.*)$/s`,
`ALIAS = /^-\w+$/`, `ALIAS_VALUE_REGEX = /=(.*)/s`): end-of-flags marker,
negated long flag, long flag with inline value, long flag, short alias with
inline value, short alias, positional fallback. -/
def parseToken (token : String) : ParsedTok :=
  let trimmed := jsTrimL token.data
  if trimmed = ['-', '-'] then
    { original := token, isEndOfFlags := true }
  else if trimmed.take 5 = ['-', '-', 'n', 'o', '-'] then
    { key := some (String.mk (trimmed.drop 5)), isFlag := true, isNegation := true,
      original := token }
  else if trimmed.take 2 = ['-', '-'] ∧ '=' ∈ trimmed then
    { key := some (String.mk ((beforeEq trimmed).drop 2)),
      value := some (String.mk (afterEq trimmed)), isFlag := true, original := token }
  else if trimmed.take 2 = ['-', '-'] then
    { key := some (String.mk (trimmed.drop 2)), isFlag := true, original := token }
  else
    match trimmed with
    | '-' :: c :: r =>
      if isWordC c ∧ (c :: r).takeWhile isWordC ≠ [] ∧
          ((c :: r).dropWhile isWordC).take 1 = ['='] then
        { key := some (String.mk (beforeEq (c :: r))),
          value := some (String.mk (afterEq (c :: r))), isFlag := true, original := token }
      else if (c :: r).all isWordC then
        { key := some (String.mk (c :: r)), isFlag := true, original := token }
      else { original := token }
    | _ => { original := token }

/-! ### Command tree (`src/command/index.ts`) -/

/-- `CommandError` sites: one constructor per `throw` of the construction
API (`src/command/index.ts`) and of `CLI.run`, carrying the discriminating
data; resolution-time coercion failures propagate through `parsing`. -/
inductive CmdErr where
  | expectedArgGotOption (argName original : String)
  | unknownOptionNoOpts (original : String)
  | unknownOption (original : String)
  | missingOptionValue (key original : String)
  | unexpectedArgNoArgs (raw : String)
  | unexpectedArg (raw : String)
  | missingRequiredArgument (name : String)
  | duplicateOption (name : String)
  | duplicateArgument (name : String)
  | requiredAfterOptional (name : String)
  | duplicateCommand (name : String)
  | handlerAlreadySet
  | parsing (e : ParseErr)

/-- A command node: name, sub-commands (a keyed `Map` in insertion order),
aliases, positional-argument definitions (insertion order = matching
order), option definitions, and whether an action handler is set (the
handler body itself is the caller's code, outside the engine). -/
inductive Command where
  | node (name : String) (commands : List (String × Command))
      (aliases : List String) (argumentsDef : List (String × ArgumentDef))
      (optionsDef : List (String × OptionDef)) (hasHandler : Bool)

/-- The `name` field. -/
def Command.name : Command → String
  | .node n _ _ _ _ _ => n

/-- The `commands` map. -/
def Command.commands : Command → List (String × Command)
  | .node _ cs _ _ _ _ => cs

/-- The `aliases` set. -/
def Command.aliases : Command → List String
  | .node _ _ as _ _ _ => as

/-- The `argumentsDef` map. -/
def Command.argumentsDef : Command → List (String × ArgumentDef)
  | .node _ _ _ ad _ _ => ad

/-- The `optionsDef` map. -/
def Command.optionsDef : Command → List (String × OptionDef)
  | .node _ _ _ _ od _ => od

/-- Whether an action handler is set. -/
def Command.hasHandler : Command → Bool
  | .node _ _ _ _ _ h => h

/-- A freshly constructed command (`new Command(name)`). -/
def Command.base (name : String) : Command :=
  .node name [] [] [] [] false

/-- `Command.option`: fails when the canonical `name` is already a key of
`optionsDef`; otherwise registers the (defaults-merged) definition.  Note
the source consults only `optionsDef.has(name)` - alias lists are not
examined. -/
def Command.option (c : Command) (name : String) (config : OptionDef) :
    Except CmdErr Command :=
  match c with
  | .node n cs as ad od h =>
    if (od.lookup name).isSome then .error (.duplicateOption name)
    else .ok (.node n cs as ad (od ++ [(name, config)]) h)

/-- `Command.argument`: fails on a duplicate name, and on a required
argument declared after an optional/defaulted one. -/
def Command.argument (c : Command) (name : String) (config : ArgumentDef) :
    Except CmdErr Command :=
  match c with
  | .node n cs as ad od h =>
    if (ad.lookup name).isSome then .error (.duplicateArgument name)
    else
      let isRequired := !config.optional
      let hasOptionalArgs := ad.any (fun p => p.2.optional || p.2.defaultValue.isSome)
      if isRequired && hasOptionalArgs then .error (.requiredAfterOptional name)
      else .ok (.node n cs as (ad ++ [(name, config)]) od h)

/-- `Command.command` (sub-command registration): fails on a duplicate
child name; otherwise inserts the supplied (or fresh) child under `name`
with its `name` field overwritten.  The source returns the child for
fluent chaining; the functional embedding returns the updated parent. -/
def Command.subcommand (c : Command) (name : String) (child : Option Command) :
    Except CmdErr Command :=
  match c with
  | .node n cs as ad od h =>
    if (cs.lookup name).isSome then .error (.duplicateCommand name)
    else
      let cmd := child.getD (Command.base "")
      let cmd2 : Command :=
        match cmd with
        | .node _ ccs cas cad cod ch => .node name ccs cas cad cod ch
      .ok (.node n (cs ++ [(name, cmd2)]) as ad od h)

/-- `Command.alias`: set insertion only, no validation. -/
def Command.aliasAdd (c : Command) (names : List String) : Command :=
  match c with
  | .node n cs as ad od h => .node n cs (as ++ names.filter (fun a => a ∉ as)) ad od h

/-- `Command.action`: fails when a handler is already defined. -/
def Command.action (c : Command) : Except CmdErr Command :=
  match c with
  | .node n cs as ad od h =>
    if h then .error .handlerAlreadySet
    else .ok (.node n cs as ad od true)

/-- Command nodes reachable by sequences of construction operations on a
fresh node (children inserted by `subcommand` must themselves be
reachable). -/
inductive Reachable : Command → Prop where
  | base (name : String) : Reachable (Command.base name)
  | option {c c2 : Command} {n : String} {d : OptionDef} :
      Reachable c → c.option n d = .ok c2 → Reachable c2
  | argument {c c2 : Command} {n : String} {d : ArgumentDef} :
      Reachable c → c.argument n d = .ok c2 → Reachable c2
  | subcommand {c child c2 : Command} {n : String} :
      Reachable c → Reachable child → c.subcommand n (some child) = .ok c2 → Reachable c2
  | subcommandFresh {c c2 : Command} {n : String} :
      Reachable c → c.subcommand n none = .ok c2 → Reachable c2
  | aliasAdd {c : Command} {ns : List String} :
      Reachable c → Reachable (c.aliasAdd ns)
  | action {c c2 : Command} :
      Reachable c → c.action = .ok c2 → Reachable c2

/-! ### Resolution engine (`CLI.run`, `src/index.ts`) -/

/-- The `args`/`options` records: JavaScript object semantics - an existing
key keeps its position and receives the new value, a new key is appended. -/
abbrev Bindings := List (String × JsValue)

/-- `record[key] = value`. -/
def jsSet (b : Bindings) (k : String) (v : JsValue) : Bindings :=
  match b with
  | [] => [(k, v)]
  | (k0, v0) :: r => if k0 = k then (k0, v) :: r else (k0, v0) :: jsSet r k v

/-- Step 1 of `run`: iteratively consume tokens matching registered child
names (exact names only - aliases are not consulted); the deepest match is
the active command. -/
def descend : Command → List String → Command × List String
  | c, [] => (c, [])
  | c, t :: rest =>
    match c.commands.lookup t with
    | some sub => descend sub rest
    | none => (c, t :: rest)

/-- Option lookup of the scan: the canonical name first, then the first
definition whose alias list holds the key (rewriting the key to the
canonical name). -/
def resolveOptKey (defs : List (String × OptionDef)) (k : String) :
    Option (String × OptionDef) :=
  match defs.lookup k with
  | some o => some (k, o)
  | none => defs.find? (fun p => k ∈ p.2.aliasList)

/-- The option block of the scan (lines 241-299 of `CLI.run`), reached for
a flag-shaped token either with no pending positional or after an
optional/defaulted positional yields.  Returns the updated options record
and whether the following token was consumed as the value.  The
`if (!next)` guard of the source treats the empty string as falsy, so an
empty following token also raises the missing-value error. -/
def optStep (jd : String → Option ℚ) (now : ℚ) (optionsDef : List (String × OptionDef))
    (p : ParsedTok) (nextTok : Option String) (opts : Bindings) :
    Except CmdErr (Bindings × Bool) :=
  if optionsDef.isEmpty then .error (.unknownOptionNoOpts p.original)
  else
    match resolveOptKey optionsDef (p.key.getD "") with
    | none => .error (.unknownOption p.original)
    | some (key, opt) =>
      if opt.type = .boolean then
        .ok (jsSet opts key
          (match p.value with
           | some v => .vStr v
           | none => .vBool (!p.isNegation)), false)
      else
        match p.value with
        | some v =>
          match coerceOption jd now opt v opt.choices with
          | .ok val => .ok (jsSet opts key val, false)
          | .error e => .error (.parsing e)
        | none =>
          match nextTok with
          | none => .error (.missingOptionValue (p.key.getD "") p.original)
          | some nxt =>
            if nxt = "" then .error (.missingOptionValue (p.key.getD "") p.original)
            else
              match coerceOption jd now opt nxt [] with
              | .ok val => .ok (jsSet opts key val, true)
              | .error e => .error (.parsing e)

/-- Outcome of the token scan (step 3 of `run`): the reserved-flag
short-circuits, a thrown error, or the bound records. -/
inductive ScanOut where
  | exitVersion
  | exitHelp
  | err (e : CmdErr)
  | done (args opts : Bindings)

/-- The token scan of `CLI.run` (the `for` loop, lines 180-315): reserved
`version`/`v` and `help`/`h` keys short-circuit before anything else, `--`
sets the end-of-flags state, a pending positional consumes any token that
is not flag-shaped-outside-end-of-flags, a flag-shaped token before `--`
is matched against the options (a required pending positional rejects it
first), and a leftover token is an unexpected argument.  Fuel is by token
count (each step consumes at least one token); the source's defensive
`!def` throw inside the pending-positional branch is unreachable (the
index is in bounds there) and is dropped by the bounds-checked lookup. -/
def scanF (jd : String → Option ℚ) (now : ℚ) (argsDef : List (String × ArgumentDef))
    (optsDef : List (String × OptionDef)) :
    Nat → List String → Nat → Bool → Bindings → Bindings → ScanOut
  | 0, _, _, _, args, opts => .done args opts
  | _ + 1, [], _, _, args, opts => .done args opts
  | f + 1, t :: rest, pi, eof, args, opts =>
    let p := parseToken t
    if p.key = some "version" ∨ p.key = some "v" then .exitVersion
    else if p.key = some "help" ∨ p.key = some "h" then .exitHelp
    else if p.isEndOfFlags then scanF jd now argsDef optsDef f rest pi true args opts
    else
      let optionPath : ScanOut :=
        match optStep jd now optsDef p rest.head? opts with
        | .error e => .err e
        | .ok (opts2, consumed) =>
          if consumed then scanF jd now argsDef optsDef f rest.tail pi eof args opts2
          else scanF jd now argsDef optsDef f rest pi eof args opts2
      match argsDef.get? pi with
      | some (nm, arg) =>
        if p.isFlag && !eof then
          if !arg.optional && arg.defaultValue.isNone then
            .err (.expectedArgGotOption nm p.original)
          else optionPath
        else
          match coerceArgument jd now arg t arg.choices with
          | .ok v => scanF jd now argsDef optsDef f rest (pi + 1) eof (jsSet args nm v) opts
          | .error e => .err (.parsing e)
      | none =>
        if p.isFlag && !eof then optionPath
        else if argsDef.isEmpty then .err (.unexpectedArgNoArgs t)
        else .err (.unexpectedArg t)

/-- Step 4 of `run`: for every argument definition without a binding but
with a declared default, bind `coerceArgument(arg.type, arg.defaultValue)`
- which, per `coerceDefValue`, is the raw default value. -/
def applyArgDefaults (argsDef : List (String × ArgumentDef)) (args : Bindings) :
    Bindings :=
  argsDef.foldl
    (fun acc p =>
      if (acc.lookup p.1).isNone then
        match p.2.defaultValue with
        | some dv => jsSet acc p.1 (coerceDefValue p.2.type dv)
        | none => acc
      else acc) args

/-- Step 5 of `run`: option defaults, same shape as `applyArgDefaults`. -/
def applyOptDefaults (optsDef : List (String × OptionDef)) (opts : Bindings) :
    Bindings :=
  optsDef.foldl
    (fun acc p =>
      if (acc.lookup p.1).isNone then
        match p.2.defaultValue with
        | some dv => jsSet acc p.1 (coerceDefValue p.2.type dv)
        | none => acc
      else acc) opts

/-- Step 6 of `run`: the first argument definition that is required (not
optional, no default) and unbound, if any.  The source iterates only
`argumentsDef`; option definitions are not examined here. -/
def findMissingRequired (argsDef : List (String × ArgumentDef)) (args : Bindings) :
    Option String :=
  (argsDef.find?
    (fun p => !p.2.optional && p.2.defaultValue.isNone && (args.lookup p.1).isNone)).map
    Prod.fst

/-- The outcome of one engine invocation: the reserved-flag
short-circuits, the help render for a handler-less command, the handler
invocation with the two bound records, or a diagnostic. -/
inductive RunResult where
  | exitVersion
  | exitHelp
  | helpShown
  | success (args opts : Bindings)
  | error (e : CmdErr)

/-- `CLI.run` (without the printing/exit glue): sub-command descent, token
scan, defaulting, required validation, handler dispatch. -/
def runResolve (jd : String → Option ℚ) (now : ℚ) (root : Command)
    (argv : List String) : RunResult :=
  let dc := descend root argv
  let cmd := dc.1
  let tokens := dc.2
  match scanF jd now cmd.argumentsDef cmd.optionsDef (tokens.length + 1) tokens 0 false [] [] with
  | .exitVersion => .exitVersion
  | .exitHelp => .exitHelp
  | .err e => .error e
  | .done args opts =>
    let args2 := applyArgDefaults cmd.argumentsDef args
    let opts2 := applyOptDefaults cmd.optionsDef opts
    match findMissingRequired cmd.argumentsDef args2 with
    | some nm => .error (.missingRequiredArgument nm)
    | none => if cmd.hasHandler then .success args2 opts2 else .helpShown

/-- The external date parser used by the concrete evaluations: a runtime
whose `new Date` recognises no input (duration-shaped strings are not
dates). -/
def jdNone : String → Option ℚ := fun _ => none

/-! ### Groundwork: digit spans and the shared numeric matcher -/

theorem dropWhile_all_false {p : Char → Bool} :
    ∀ {l : List Char}, (∀ c ∈ l, p c = false) → l.dropWhile p = l
  | [], _ => rfl
  | c :: r, h => by
    have hc := h c (List.mem_cons_self c r)
    simp [List.dropWhile, hc]

theorem jsTrimL_noop {cs : List Char} (h : ∀ c ∈ cs, isJsWs c = false) :
    jsTrimL cs = cs := by
  unfold jsTrimL
  rw [dropWhile_all_false h]
  rw [dropWhile_all_false (fun c hc => h c (List.mem_reverse.mp hc))]
  exact List.reverse_reverse cs

theorem digit_not_ws {c : Char} (h : isDigitC c = true) : isJsWs c = false := by
  simp only [isDigitC, List.mem_cons, List.not_mem_nil, or_false, decide_eq_true_eq] at h
  rcases h with rfl | rfl | rfl | rfl | rfl | rfl | rfl | rfl | rfl | rfl <;> decide

theorem dot_not_digit : isDigitC '.' = false := by decide

theorem takeDigits_append :
    ∀ (ds r : List Char), (∀ c ∈ ds, isDigitC c = true) →
      (∀ c ∈ r.take 1, isDigitC c = false) → takeDigits (ds ++ r) = (ds, r)
  | [], r, _, hr => by
    cases r with
    | nil => rfl
    | cons c cs =>
      have hc := hr c (by simp)
      simp [takeDigits, hc]
  | d :: ds, r, hds, hr => by
    have hd := hds d (List.mem_cons_self d ds)
    have ih := takeDigits_append ds r (fun c hc => hds c (List.mem_cons_of_mem d hc)) hr
    simp [takeDigits, hd, List.cons_append, ih]

theorem takeDigits_sound :
    ∀ {cs ds rest : List Char}, takeDigits cs = (ds, rest) →
      cs = ds ++ rest ∧ ∀ c ∈ ds, isDigitC c = true := by
  intro cs
  induction cs with
  | nil =>
    intro ds rest h
    simp only [takeDigits, Prod.mk.injEq] at h
    simp [← h.1, ← h.2]
  | cons c r ih =>
    intro ds rest h
    by_cases hc : isDigitC c = true
    · rcases hp : takeDigits r with ⟨ds1, rest1⟩
      simp only [takeDigits, hc, if_true, hp, Prod.mk.injEq] at h
      obtain ⟨he, hall⟩ := ih hp
      refine ⟨?_, ?_⟩
      · rw [← h.1, ← h.2, he]; rfl
      · intro x hx
        rw [← h.1] at hx
        rcases List.mem_cons.mp hx with rfl | hx
        · exact hc
        · exact hall x hx
    · simp only [takeDigits, hc, if_false, Bool.false_eq_true, Prod.mk.injEq] at h
      refine ⟨by rw [← h.1, ← h.2]; rfl, ?_⟩
      intro x hx
      rw [← h.1] at hx
      exact absurd hx (List.not_mem_nil x)

/-- Rendering of the numeric group `(\d+(?:\.\d+)?)`: integer digits, then
an optional `.`-prefixed fraction (an empty `frac` means no fraction). -/
def renderNum (intDs frac : List Char) : List Char :=
  intDs ++ (if frac = [] then [] else '.' :: frac)

theorem matchNumber_render (intDs frac r : List Char)
    (hi : intDs ≠ []) (hid : ∀ c ∈ intDs, isDigitC c = true)
    (hfd : ∀ c ∈ frac, isDigitC c = true)
    (hr : ∀ c ∈ r.take 1, isDigitC c = false ∧ c ≠ '.') :
    matchNumber (renderNum intDs frac ++ r) = some (decValue intDs frac, r) := by
  by_cases hf : frac = []
  · subst hf
    have ht : takeDigits (intDs ++ r) = (intDs, r) :=
      takeDigits_append intDs r hid (fun c hc => (hr c hc).1)
    unfold matchNumber
    rw [show renderNum intDs [] ++ r = intDs ++ r by simp [renderNum]]
    rw [ht]
    cases intDs with
    | nil => exact absurd rfl hi
    | cons d ds =>
      cases r with
      | nil => rfl
      | cons c cs =>
        have hc := (hr c (by simp)).2
        simp [hc]
  · have hr2 : ∀ c ∈ ('.' :: (frac ++ r)).take 1, isDigitC c = false := by
      intro c hc
      simp at hc
      rw [hc]
      exact dot_not_digit
    have ht : takeDigits (intDs ++ ('.' :: (frac ++ r))) = (intDs, '.' :: (frac ++ r)) :=
      takeDigits_append intDs _ hid hr2
    have ht2 : takeDigits (frac ++ r) = (frac, r) :=
      takeDigits_append frac r hfd (fun c hc => (hr c hc).1)
    unfold matchNumber
    rw [show renderNum intDs frac ++ r = intDs ++ ('.' :: (frac ++ r)) by
      simp [renderNum, hf]]
    rw [ht]
    cases intDs with
    | nil => exact absurd rfl hi
    | cons d ds =>
      simp only [if_pos rfl, ht2]
      cases frac with
      | nil => exact absurd rfl hf
      | cons fc fcs => rfl

theorem matchNumber_sound {cs : List Char} {q : ℚ} {r : List Char}
    (h : matchNumber cs = some (q, r)) :
    ∃ intDs frac, intDs ≠ [] ∧ (∀ c ∈ intDs, isDigitC c = true) ∧
      (∀ c ∈ frac, isDigitC c = true) ∧ cs = renderNum intDs frac ++ r ∧
      q = decValue intDs frac := by
  unfold matchNumber at h
  rcases ht : takeDigits cs with ⟨ds, rest⟩
  rw [ht] at h
  obtain ⟨hcs, hds⟩ := takeDigits_sound ht
  cases ds with
  | nil => simp at h
  | cons d ds0 =>
    rcases rest with _ | ⟨c, r2⟩
    all_goals dsimp only at h
    · simp only [Option.some.injEq, Prod.mk.injEq] at h
      refine ⟨d :: ds0, [], by simp, hds, by simp, ?_, h.1.symm⟩
      simp [renderNum, hcs, h.2]
    · by_cases hc : c = '.'
      · subst hc
        rw [if_pos rfl] at h
        rcases ht2 : takeDigits r2 with ⟨fs, r3⟩
        rw [ht2] at h
        obtain ⟨hr2, hfs⟩ := takeDigits_sound ht2
        cases fs with
        | nil =>
          simp only [Option.some.injEq, Prod.mk.injEq] at h
          refine ⟨d :: ds0, [], by simp, hds, by simp, ?_, h.1.symm⟩
          simp [renderNum, hcs, ← h.2]
        | cons f fs0 =>
          simp only [Option.some.injEq, Prod.mk.injEq] at h
          refine ⟨d :: ds0, f :: fs0, by simp, hds, hfs, ?_, h.1.symm⟩
          rw [renderNum, if_neg (by simp)]
          simp [hcs, hr2, ← h.2]
      · rw [if_neg hc] at h
        simp only [Option.some.injEq, Prod.mk.injEq] at h
        refine ⟨d :: ds0, [], by simp, hds, by simp, ?_, h.1.symm⟩
        simp [renderNum, hcs, h.2]

/-! ### Groundwork: duration strings -/

/-- Spelling of each duration unit in the regex alternation. -/
def TimeUnit.chars : TimeUnit → List Char
  | .ms => ['m', 's']
  | .s => ['s']
  | .m => ['m']
  | .h => ['h']
  | .d => ['d']
  | .w => ['w']
  | .mo => ['m', 'o']
  | .y => ['y']

/-- One `<number><unit>` segment of a duration string. -/
structure DurSeg where
  intDs : List Char
  frac : List Char
  unit : TimeUnit

/-- A well-formed segment with a unit in the claim's set
`{ms, s, m, h, d, w}`. -/
def DurSeg.valid (s : DurSeg) : Prop :=
  s.intDs ≠ [] ∧ (∀ c ∈ s.intDs, isDigitC c = true) ∧
    (∀ c ∈ s.frac, isDigitC c = true) ∧
    s.unit ∈ [TimeUnit.ms, TimeUnit.s, TimeUnit.m, TimeUnit.h, TimeUnit.d, TimeUnit.w]

/-- The text of a segment. -/
def DurSeg.render (s : DurSeg) : List Char := renderNum s.intDs s.frac ++ s.unit.chars

/-- The numeric value of a segment. -/
def DurSeg.value (s : DurSeg) : ℚ := decValue s.intDs s.frac

/-- The concatenation of one or more segments. -/
def renderSegs (l : List DurSeg) : List Char := (l.map DurSeg.render).join

/-- The sum over all segments of value times the unit's millisecond
factor. -/
def durTotal (l : List DurSeg) : ℚ := (l.map (fun s => s.value * unitToMs s.unit)).sum

theorem take_one_append {l r : List Char} (h : l ≠ []) :
    (l ++ r).take 1 = l.take 1 := by
  cases l with
  | nil => exact absurd rfl h
  | cons c cs => simp

theorem digit_ne_s {c : Char} (h : isDigitC c = true) : c ≠ 's' := by
  simp only [isDigitC, List.mem_cons, List.not_mem_nil, or_false, decide_eq_true_eq] at h
  rcases h with rfl | rfl | rfl | rfl | rfl | rfl | rfl | rfl | rfl | rfl <;> decide

theorem matchTimeUnit_render (u : TimeUnit) (r : List Char)
    (hu : u ∈ [TimeUnit.ms, TimeUnit.s, TimeUnit.m, TimeUnit.h, TimeUnit.d, TimeUnit.w])
    (hr : ∀ c ∈ r.take 1, isDigitC c = true) :
    matchTimeUnit (u.chars ++ r) = some (u, r) := by
  fin_cases hu
  · rfl
  · rfl
  · show matchTimeUnit ('m' :: r) = some (.m, r)
    cases r with
    | nil => rfl
    | cons c cs =>
      have hc : c ≠ 's' := digit_ne_s (hr c (by simp))
      simp [matchTimeUnit, hc]
  · rfl
  · rfl
  · rfl

theorem unitChars_not_ws (u : TimeUnit) :
    ∀ c ∈ u.chars, isJsWs c = false := by
  intro c hc
  cases u <;> simp [TimeUnit.chars] at hc <;>
    first
      | (obtain rfl | rfl := hc <;> decide)
      | (obtain rfl := hc; decide)

theorem unitChars_head (u : TimeUnit) :
    ∀ c ∈ u.chars.take 1, isDigitC c = false ∧ c ≠ '.' := by
  cases u <;> simp [TimeUnit.chars] <;> decide

theorem unitChars_ne_nil (u : TimeUnit) : u.chars ≠ [] := by
  cases u <;> simp [TimeUnit.chars]

theorem matchSeg_render (s : DurSeg) (r : List Char) (hv : s.valid)
    (hr : ∀ c ∈ r.take 1, isDigitC c = true) :
    matchSeg (s.render ++ r) = some ((s.value, s.unit), r) := by
  obtain ⟨hi, hid, hfd, hu⟩ := hv
  have hhead : ∀ c ∈ (s.unit.chars ++ r).take 1, isDigitC c = false ∧ c ≠ '.' := by
    rw [take_one_append (unitChars_ne_nil s.unit)]
    exact unitChars_head s.unit
  have hnum := matchNumber_render s.intDs s.frac (s.unit.chars ++ r) hi hid hfd hhead
  unfold matchSeg
  rw [show s.render ++ r = renderNum s.intDs s.frac ++ (s.unit.chars ++ r) by
    simp [DurSeg.render, List.append_assoc]]
  rw [hnum]
  dsimp only
  rw [matchTimeUnit_render s.unit r hu hr]
  rfl

theorem renderSegs_head {segs : List DurSeg} (hv : ∀ s ∈ segs, s.valid) :
    ∀ c ∈ (renderSegs segs).take 1, isDigitC c = true := by
  cases segs with
  | nil => simp [renderSegs]
  | cons s rest =>
    obtain ⟨hi, hid, _, _⟩ := hv s (List.mem_cons_self s rest)
    cases hd : s.intDs with
    | nil => exact absurd hd hi
    | cons d ds =>
      have : renderSegs (s :: rest) = d :: (ds ++
          (if s.frac = [] then [] else '.' :: s.frac) ++
          (s.unit.chars ++ renderSegs rest)) := by
        simp [renderSegs, DurSeg.render, renderNum, hd, List.append_assoc]
      rw [this]
      intro c hc
      simp at hc
      rw [hc]
      exact hid d (by rw [hd]; exact List.mem_cons_self d ds)

theorem renderSeg_ne_nil {s : DurSeg} (hv : s.valid) : s.render ≠ [] := by
  obtain ⟨hi, _, _, _⟩ := hv
  cases hd : s.intDs with
  | nil => exact absurd hd hi
  | cons d ds => simp [DurSeg.render, renderNum, hd]

theorem scanDurF_render : ∀ (segs : List DurSeg) (f : Nat),
    (∀ s ∈ segs, s.valid) → (renderSegs segs).length ≤ f →
    scanDurF f (renderSegs segs) = segs.map (fun s => (s.value, s.unit))
  | [], f, _, _ => by cases f <;> simp [renderSegs, scanDurF]
  | s :: rest, f, hv, hf => by
    have hvs := hv s (List.mem_cons_self s rest)
    have hvr : ∀ x ∈ rest, x.valid := fun x hx => hv x (List.mem_cons_of_mem s hx)
    have hrender : renderSegs (s :: rest) = s.render ++ renderSegs rest := by
      simp [renderSegs]
    have hmatch := matchSeg_render s (renderSegs rest) hvs (renderSegs_head hvr)
    obtain ⟨c, cs, hcons⟩ : ∃ c cs, s.render = c :: cs := by
      cases hh : s.render with
      | nil => exact absurd hh (renderSeg_ne_nil hvs)
      | cons c cs => exact ⟨c, cs, rfl⟩
    cases f with
    | zero =>
      exfalso
      rw [hrender, hcons] at hf
      simp at hf
    | succ f2 =>
      rw [hrender, hcons, List.cons_append]
      show scanDurF (f2 + 1) (c :: (cs ++ renderSegs rest)) = _
      unfold scanDurF
      rw [show (c :: (cs ++ renderSegs rest)) = s.render ++ renderSegs rest by
        rw [hcons]; rfl]
      rw [hmatch]
      dsimp only
      have hlen : (renderSegs rest).length ≤ f2 := by
        rw [hrender, hcons] at hf
        simp at hf
        omega
      rw [scanDurF_render rest f2 hvr hlen]
      rfl

theorem parseDuration_render (segs : List DurSeg) (h1 : segs ≠ [])
    (hv : ∀ s ∈ segs, s.valid) :
    parseDuration (String.mk (renderSegs segs)) = some (durTotal segs) := by
  unfold parseDuration
  rw [show (String.mk (renderSegs segs)).data = renderSegs segs from rfl]
  rw [scanDurF_render segs (renderSegs segs).length hv (le_refl _)]
  have hne : segs.map (fun s => (s.value, s.unit)) ≠ [] := by
    cases segs with
    | nil => exact absurd rfl h1
    | cons a b => simp
  rw [if_neg hne]
  rw [List.map_map]
  rfl

theorem renderSegs_not_ws {segs : List DurSeg} (hv : ∀ s ∈ segs, s.valid) :
    ∀ c ∈ renderSegs segs, isJsWs c = false := by
  intro c hc
  rw [renderSegs] at hc
  obtain ⟨l, hl, hcl⟩ := List.mem_join.mp hc
  obtain ⟨s, hs, rfl⟩ := List.mem_map.mp hl
  obtain ⟨_, hid, hfd, _⟩ := hv s hs
  rw [DurSeg.render] at hcl
  rcases List.mem_append.mp hcl with hmem | hmem
  · rw [renderNum] at hmem
    rcases List.mem_append.mp hmem with hmem2 | hmem2
    · exact digit_not_ws (hid c hmem2)
    · by_cases hfr : s.frac = []
      · rw [if_pos hfr] at hmem2
        exact absurd hmem2 (List.not_mem_nil c)
      · rw [if_neg hfr] at hmem2
        rcases List.mem_cons.mp hmem2 with rfl | hmem3
        · decide
        · exact digit_not_ws (hfd c hmem3)
  · exact unitChars_not_ws s.unit c hmem

theorem renderSegs_ne_nil {segs : List DurSeg} (h1 : segs ≠ [])
    (hv : ∀ s ∈ segs, s.valid) : renderSegs segs ≠ [] := by
  cases segs with
  | nil => exact absurd rfl h1
  | cons s rest =>
    have := renderSeg_ne_nil (hv s (List.mem_cons_self s rest))
    rw [renderSegs]
    simp only [List.map_cons, List.join_cons]
    intro hcontra
    exact this (List.append_eq_nil.mp hcontra).1

/-- Core duration lemma: on the concatenation of valid segments, with the
external date parser rejecting the string, `Time`'s constructor returns
exactly the sum of value-times-factor over all segments. -/
theorem timeMake_duration (jd : String → Option ℚ) (now : ℚ) (segs : List DurSeg)
    (h1 : segs ≠ []) (hv : ∀ s ∈ segs, s.valid)
    (hdate : timeParseDate jd now (String.mk (renderSegs segs)) = none) :
    timeMake jd now (String.mk (renderSegs segs)) = .ok (durTotal segs) := by
  have htrimL : jsTrimL (renderSegs segs) = renderSegs segs :=
    jsTrimL_noop (renderSegs_not_ws hv)
  have htrim : jsTrim (String.mk (renderSegs segs)) = String.mk (renderSegs segs) := by
    unfold jsTrim
    rw [show (String.mk (renderSegs segs)).data = renderSegs segs from rfl, htrimL]
  have hne : String.mk (renderSegs segs) ≠ "" := by
    intro hcontra
    exact renderSegs_ne_nil h1 hv (by
      have := congrArg String.data hcontra
      exact this)
  unfold timeMake
  rw [htrim, if_neg hne]
  unfold parseToMs
  rw [htrim]
  dsimp only
  rw [hdate, parseDuration_render segs h1 hv]

/-! ### Groundwork: byte-size strings -/

theorem sizeUnitOf_chars (u : SizeUnit) : sizeUnitOf u.chars = some u := by
  cases u <;> rfl

theorem sizeUnitOf_sound {ls : List Char} {u : SizeUnit}
    (h : sizeUnitOf ls = some u) : ls = u.chars := by
  unfold sizeUnitOf at h
  split_ifs at h with h1 h2 h3 h4 h5 h6 <;>
    first
      | (injection h with h0; subst h0; assumption)
      | exact absurd h (by simp)

theorem lower_head_not_digit {c x : Char} (hx : toLowerC c = x)
    (hlet : x ∈ ['b', 'k', 'm', 'g', 't', 'p']) :
    isDigitC c = false ∧ c ≠ '.' := by
  constructor
  · by_contra hcon
    have hc : isDigitC c = true := by revert hcon; cases isDigitC c <;> simp
    simp only [isDigitC, List.mem_cons, List.not_mem_nil, or_false,
      decide_eq_true_eq] at hc
    rcases hc with rfl | rfl | rfl | rfl | rfl | rfl | rfl | rfl | rfl | rfl <;>
      (rw [← hx] at hlet; revert hlet; decide)
  · intro hdot
    subst hdot
    rw [← hx] at hlet
    revert hlet
    decide

theorem lower_not_ws {c x : Char} (hx : toLowerC c = x)
    (hlet : x ∈ ['b', 'k', 'm', 'g', 't', 'p']) : isJsWs c = false := by
  by_contra hcon
  have hc : isJsWs c = true := by revert hcon; cases isJsWs c <;> simp
  simp only [isJsWs, Bool.or_eq_true, decide_eq_true_eq] at hc
  rcases hc with ((((((((rfl | rfl) | rfl) | rfl) | rfl) | rfl) | rfl) | rfl) | rfl) | rfl <;>
    (rw [← hx] at hlet; revert hlet; decide)

theorem map_lower_head {unitRaw : List Char} {u : SizeUnit}
    (hu : unitRaw.map toLowerC = u.chars) :
    ∀ c ∈ unitRaw.take 1, isDigitC c = false ∧ c ≠ '.' := by
  cases unitRaw with
  | nil =>
    exfalso
    cases u <;> simp [SizeUnit.chars] at hu
  | cons c cs =>
    intro x hx
    simp at hx
    subst hx
    simp only [List.map_cons] at hu
    have hhead : toLowerC x = u.chars.headI := by
      cases u <;> (simp [SizeUnit.chars] at hu ⊢; exact hu.1)
    refine lower_head_not_digit hhead ?_
    cases u <;> decide

theorem sizeMatch_render (intDs frac unitRaw : List Char) (u : SizeUnit)
    (hi : intDs ≠ []) (hid : ∀ c ∈ intDs, isDigitC c = true)
    (hfd : ∀ c ∈ frac, isDigitC c = true)
    (hu : unitRaw.map toLowerC = u.chars) :
    sizeMatch (renderNum intDs frac ++ unitRaw) = some (decValue intDs frac, u) := by
  unfold sizeMatch
  rw [matchNumber_render intDs frac unitRaw hi hid hfd (map_lower_head hu)]
  dsimp only
  rw [hu, sizeUnitOf_chars]

theorem sizeMatch_sound {cs : List Char} {q : ℚ} {u : SizeUnit}
    (h : sizeMatch cs = some (q, u)) :
    ∃ intDs frac unitRaw, intDs ≠ [] ∧ (∀ c ∈ intDs, isDigitC c = true) ∧
      (∀ c ∈ frac, isDigitC c = true) ∧ cs = renderNum intDs frac ++ unitRaw ∧
      unitRaw.map toLowerC = u.chars ∧ q = decValue intDs frac := by
  unfold sizeMatch at h
  rcases hm : matchNumber cs with _ | ⟨q2, r⟩
  · rw [hm] at h; simp at h
  · rw [hm] at h
    dsimp only at h
    rcases hs : sizeUnitOf (r.map toLowerC) with _ | u2
    · rw [hs] at h; simp at h
    · rw [hs] at h
      simp only [Option.some.injEq, Prod.mk.injEq] at h
      obtain ⟨intDs, frac, hi, hid, hfd, hcs, hq⟩ := matchNumber_sound hm
      exact ⟨intDs, frac, r, hi, hid, hfd, hcs, by rw [h.2] at hs; exact sizeUnitOf_sound hs,
        by rw [← h.1, hq]⟩

theorem render_size_not_ws {intDs frac unitRaw : List Char} {u : SizeUnit}
    (hid : ∀ c ∈ intDs, isDigitC c = true) (hfd : ∀ c ∈ frac, isDigitC c = true)
    (hu : unitRaw.map toLowerC = u.chars) :
    ∀ c ∈ renderNum intDs frac ++ unitRaw, isJsWs c = false := by
  intro c hc
  rcases List.mem_append.mp hc with hmem | hmem
  · rw [renderNum] at hmem
    rcases List.mem_append.mp hmem with h2 | h2
    · exact digit_not_ws (hid c h2)
    · by_cases hfr : frac = []
      · rw [if_pos hfr] at h2
        exact absurd h2 (List.not_mem_nil c)
      · rw [if_neg hfr] at h2
        rcases List.mem_cons.mp h2 with rfl | h3
        · decide
        · exact digit_not_ws (hfd c h3)
  · have : toLowerC c ∈ u.chars := by
      rw [← hu]
      exact List.mem_map_of_mem toLowerC hmem
    refine lower_not_ws rfl ?_
    revert this
    cases u <;> (intro hthis; simp [SizeUnit.chars] at hthis) <;>
      first
        | (rcases hthis with h | h <;> simp [h])
        | simp [hthis]

/-- Core size lemma, success direction: a string that is exactly
`<n><unit>` (any letter case) parses to `n * 1024 ^ k`. -/
theorem sizeMake_render (intDs frac unitRaw : List Char) (u : SizeUnit)
    (hi : intDs ≠ []) (hid : ∀ c ∈ intDs, isDigitC c = true)
    (hfd : ∀ c ∈ frac, isDigitC c = true)
    (hu : unitRaw.map toLowerC = u.chars) :
    sizeMake (String.mk (renderNum intDs frac ++ unitRaw)) =
      .ok (decValue intDs frac * (1024 : ℚ) ^ u.pow) := by
  have hnws := render_size_not_ws hid hfd hu
  have htrimL : jsTrimL (renderNum intDs frac ++ unitRaw) =
      renderNum intDs frac ++ unitRaw := jsTrimL_noop hnws
  have hne0 : renderNum intDs frac ++ unitRaw ≠ [] := by
    cases hd : intDs with
    | nil => exact absurd hd hi
    | cons d ds => simp [renderNum, hd]
  unfold sizeMake
  rw [if_neg (by
    unfold jsTrim
    rw [show (String.mk (renderNum intDs frac ++ unitRaw)).data =
      renderNum intDs frac ++ unitRaw from rfl, htrimL]
    intro hcontra
    exact hne0 (congrArg String.data hcontra))]
  unfold parseToBytes
  rw [show (String.mk (renderNum intDs frac ++ unitRaw)).data =
    renderNum intDs frac ++ unitRaw from rfl, htrimL]
  rw [sizeMatch_render intDs frac unitRaw u hi hid hfd hu]

/-- Core size lemma, failure direction: a non-empty trimmed string that is
not of the `<n><unit>` form fails with the invalid-size-format error. -/
theorem sizeMake_fail (s : String) (hne : jsTrim s ≠ "")
    (hnomatch : ∀ intDs frac unitRaw (u : SizeUnit), intDs ≠ [] →
      (∀ c ∈ intDs, isDigitC c = true) → (∀ c ∈ frac, isDigitC c = true) →
      unitRaw.map toLowerC = u.chars →
      jsTrimL s.data ≠ renderNum intDs frac ++ unitRaw) :
    sizeMake s = .error (.invalidSizeFormat s) := by
  unfold sizeMake
  rw [if_neg hne]
  unfold parseToBytes
  rcases hm : sizeMatch (jsTrimL s.data) with _ | ⟨q, u⟩
  · rfl
  · exfalso
    obtain ⟨intDs, frac, unitRaw, hi, hid, hfd, hcs, hmap, _⟩ := sizeMatch_sound hm
    exact hnomatch intDs frac unitRaw u hi hid hfd hmap hcs

/-! ### Groundwork: JSON sanitisation -/

/-- Safety along pure object paths: no forbidden key occurs in any object
reachable from the value without crossing an array element. -/
inductive ObjSafe : Json → Prop where
  | null : ObjSafe .null
  | bool (b : Bool) : ObjSafe (.bool b)
  | num (q : ℚ) : ObjSafe (.num q)
  | str (s : String) : ObjSafe (.str s)
  | arr (xs : List Json) : ObjSafe (.arr xs)
  | obj (es : List (String × Json)) (hk : ∀ kv ∈ es, kv.1 ∉ forbiddenKeys)
      (hv : ∀ kv ∈ es, ObjSafe kv.2) : ObjSafe (.obj es)

theorem sanitize_safe (f : Nat) : ∀ (es out : List (String × Json)),
    sanitizeEntriesF f es = .ok out → ObjSafe (.obj out) := by
  induction f with
  | zero =>
    intro es out h
    simp [sanitizeEntriesF] at h
  | succ f ih =>
    intro es out h
    cases es with
    | nil =>
      simp only [sanitizeEntriesF, Except.ok.injEq] at h
      subst h
      exact ObjSafe.obj [] (by simp) (by simp)
    | cons kv rest =>
      obtain ⟨k, v⟩ := kv
      unfold sanitizeEntriesF at h
      by_cases hk : k ∈ forbiddenKeys
      · rw [if_pos hk] at h
        exact absurd h (by simp)
      · rw [if_neg hk] at h
        cases v
        rotate_left 5
        · rename_i es2
          dsimp only at h
          rcases h2 : sanitizeEntriesF f es2 with e | es2'
          · rw [h2] at h; exact absurd h (by simp)
          · rw [h2] at h
            rcases h3 : sanitizeEntriesF f rest with e | rest'
            · rw [h3] at h; exact absurd h (by simp)
            · rw [h3] at h
              simp only [Except.ok.injEq] at h
              subst h
              have hs2 := ih es2 es2' h2
              have hsR := ih rest rest' h3
              cases hsR with
              | obj _ hkR hvR =>
                refine ObjSafe.obj _ ?_ ?_
                · intro kv hkv
                  rcases List.mem_cons.mp hkv with rfl | hm
                  · exact hk
                  · exact hkR kv hm
                · intro kv hkv
                  rcases List.mem_cons.mp hkv with rfl | hm
                  · exact hs2
                  · exact hvR kv hm
        all_goals (
          dsimp only at h
          rcases h3 : sanitizeEntriesF f rest with e | rest'
          · rw [h3] at h; exact absurd h (by simp)
          · rw [h3] at h
            simp only [Except.ok.injEq] at h
            subst h
            have hsR := ih rest rest' h3
            cases hsR with
            | obj _ hkR hvR =>
              refine ObjSafe.obj _ ?_ ?_
              · intro kv hkv
                rcases List.mem_cons.mp hkv with rfl | hm
                · exact hk
                · exact hkR kv hm
              · intro kv hkv
                rcases List.mem_cons.mp hkv with rfl | hm
                · constructor
                · exact hvR kv hm)

theorem parseJson_safe {s : String} {v : Json} (h : parseJson s = .ok v) :
    ObjSafe v := by
  unfold parseJson at h
  rcases hr : parseJsonRaw s with e | j
  · rw [hr] at h; exact absurd h (by simp)
  · rw [hr] at h
    cases j
    rotate_left 5
    · rename_i es
      dsimp only at h
      rcases hs : sanitizeEntriesF (s.length + 1) es with e | es2
      · rw [hs] at h; exact absurd h (by simp)
      · rw [hs] at h
        simp only [Except.ok.injEq] at h
        subst h
        exact sanitize_safe (s.length + 1) es es2 hs
    all_goals (dsimp only at h; exact absurd h (by simp))

theorem parseJson_forbidden_fallback {s : String}
    (hstrict : jsonParseStrict s = none)
    (hforb : hasForbiddenToken s.data = true) :
    parseJson s = .error (.invalidObjectSyntax s) := by
  unfold parseJson parseJsonRaw jsObjectToJson
  rw [hstrict, hforb]
  rfl

/-! ### Groundwork: association-list lookups and the construction API -/

theorem lookup_eq_none_iff {β : Type} (l : List (String × β)) (k : String) :
    l.lookup k = none ↔ k ∉ l.map Prod.fst := by
  induction l with
  | nil => simp
  | cons p r ih =>
    obtain ⟨k0, v0⟩ := p
    by_cases hk : k = k0
    · subst hk
      simp [List.lookup]
    · simp only [List.lookup, List.map_cons, List.mem_cons]
      rw [show (k == k0) = false by simp [hk]]
      simp only [ih]
      constructor
      · intro h hc
        rcases hc with rfl | hc
        · exact hk rfl
        · exact h hc
      · intro h hc
        exact h (Or.inr hc)

theorem option_ok_inv {c c2 : Command} {n : String} {d : OptionDef}
    (h : c.option n d = .ok c2) :
    c.optionsDef.lookup n = none ∧ c2.optionsDef = c.optionsDef ++ [(n, d)] := by
  cases c with
  | node nm cs as ad od hh =>
    unfold Command.option at h
    dsimp only at h
    by_cases hl : (od.lookup n).isSome
    · rw [if_pos hl] at h
      exact absurd h (by simp)
    · rw [if_neg hl] at h
      simp only [Except.ok.injEq] at h
      subst h
      refine ⟨?_, rfl⟩
      show od.lookup n = none
      revert hl
      rcases od.lookup n with _ | v <;> simp

theorem option_error_of_dup {c : Command} {n : String} {d : OptionDef}
    (h : (c.optionsDef.lookup n).isSome) : c.option n d = .error (.duplicateOption n) := by
  cases c with
  | node nm cs as ad od hh =>
    unfold Command.option
    dsimp only
    have h2 : (od.lookup n).isSome = true := h
    rw [if_pos h2]

theorem argument_ok_inv {c c2 : Command} {n : String} {d : ArgumentDef}
    (h : c.argument n d = .ok c2) : c2.optionsDef = c.optionsDef := by
  cases c with
  | node nm cs as ad od hh =>
    unfold Command.argument at h
    dsimp only at h
    split at h
    · exact absurd h (by simp)
    · split at h
      · exact absurd h (by simp)
      · simp only [Except.ok.injEq] at h
        subst h
        rfl

theorem subcommand_ok_inv {c c2 : Command} {n : String} {child : Option Command}
    (h : c.subcommand n child = .ok c2) : c2.optionsDef = c.optionsDef := by
  cases c with
  | node nm cs as ad od hh =>
    unfold Command.subcommand at h
    dsimp only at h
    split at h
    · exact absurd h (by simp)
    · simp only [Except.ok.injEq] at h
      subst h
      rfl

theorem action_ok_inv {c c2 : Command} (h : c.action = .ok c2) :
    c2.optionsDef = c.optionsDef := by
  cases c with
  | node nm cs as ad od hh =>
    unfold Command.action at h
    dsimp only at h
    split at h
    · exact absurd h (by simp)
    · simp only [Except.ok.injEq] at h
      subst h
      rfl

theorem aliasAdd_inv (c : Command) (ns : List String) :
    (c.aliasAdd ns).optionsDef = c.optionsDef := by
  cases c with
  | node nm cs as ad od hh => rfl

/-- The canonical option names of a node built by any construction sequence
are pairwise distinct (the construction API enforces exactly this - and no
more: alias lists are never examined). -/
theorem reachable_option_names_nodup {c : Command} (h : Reachable c) :
    (c.optionsDef.map Prod.fst).Nodup := by
  induction h with
  | base name => simp [Command.base, Command.optionsDef]
  | option hr hok ih =>
    rename_i c0 c2 n d
    obtain ⟨hnone, heq⟩ := option_ok_inv hok
    rw [heq, List.map_append]
    simp only [List.map_cons, List.map_nil]
    rw [List.nodup_append]
    refine ⟨ih, by simp, ?_⟩
    intro x hx hx2
    simp at hx2
    subst hx2
    exact (lookup_eq_none_iff _ _).mp hnone hx
  | argument hr hok ih => rw [argument_ok_inv hok]; exact ih
  | subcommand hr hrc hok ih ihc => rw [subcommand_ok_inv hok]; exact ih
  | subcommandFresh hr hok ih => rw [subcommand_ok_inv hok]; exact ih
  | aliasAdd hr ih => rw [aliasAdd_inv]; exact ih
  | action hr hok ih => rw [action_ok_inv hok]; exact ih

/-! ### Groundwork: required validation -/

theorem findMissingRequired_none {argsDef : List (String × ArgumentDef)}
    {args : Bindings} (h : findMissingRequired argsDef args = none) :
    ∀ p ∈ argsDef, p.2.optional = false → p.2.defaultValue = none →
      (args.lookup p.1).isSome = true := by
  intro p hp hopt hdef
  unfold findMissingRequired at h
  rw [Option.map_eq_none'] at h
  have := List.find?_eq_none.mp h p hp
  simp only [hopt, hdef, Bool.not_false, Option.isNone_none, Bool.and_true,
    Bool.true_and, Bool.and_eq_true, Bool.not_eq_true'] at this
  rcases hl : (args.lookup p.1) with _ | v
  · exfalso
    apply this
    simp [hl]
  · rfl

/-! ### Claim C1: required validation -/

/-- Command with a single required option and a handler, used to exhibit
that required options are never validated. -/
def c1cmd : Command := .node "c" [] [] [] [("o", {type := .string})] true

/-- Command with a single required positional, used as the witness input of
the amended claim. -/
def c1wit : Command := .node "w" [] [] [("p", {type := .string})] [] true

/-- Claim C1, counterexample: a command with a required option (`optional`
false, no default) resolves successfully on an empty argv - the handler is
invoked with an empty options record, so resolution does succeed while a
required option is unbound, contradicting the claim. -/
theorem c1_counterexample :
    c1cmd.optionsDef.lookup "o" = some {type := .string} ∧
    ({type := .string} : OptionDef).optional = false ∧
    ({type := .string} : OptionDef).defaultValue = none ∧
    runResolve jdNone 0 c1cmd [] = .success [] [] :=
  ⟨rfl, rfl, rfl, rfl⟩

/-- Claim C1, amended: the required validation of step 6 covers only the
declared positional arguments of the active command - whenever resolution
succeeds (the handler is invoked), every required (not optional, no
default) positional argument is bound; required options are not checked. -/
theorem c1_required_args_validated (jd : String → Option ℚ) (now : ℚ)
    (root : Command) (argv : List String) (args opts : Bindings)
    (h : runResolve jd now root argv = .success args opts) :
    ∀ p ∈ ((descend root argv).1).argumentsDef,
      p.2.optional = false → p.2.defaultValue = none →
      (args.lookup p.1).isSome = true := by
  unfold runResolve at h
  dsimp only at h
  rcases hscan : scanF jd now ((descend root argv).1).argumentsDef
      ((descend root argv).1).optionsDef (((descend root argv).2).length + 1)
      ((descend root argv).2) 0 false [] [] with _ | _ | e | ⟨a0, o0⟩ <;>
    rw [hscan] at h
  · exact absurd h (by simp)
  · exact absurd h (by simp)
  · exact absurd h (by simp)
  · dsimp only at h
    rcases hfm : findMissingRequired ((descend root argv).1).argumentsDef
        (applyArgDefaults ((descend root argv).1).argumentsDef a0) with _ | nm <;>
      rw [hfm] at h
    · by_cases hh : ((descend root argv).1).hasHandler = true
      · rw [if_pos hh] at h
        simp only [RunResult.success.injEq] at h
        intro p hp ho hd
        have hbound := findMissingRequired_none hfm p hp ho hd
        rw [← h.1]
        exact hbound
      · rw [if_neg hh] at h
        exact absurd h (by simp)
    · exact absurd h (by simp)

/-- Witness for the amended C1 at a concrete resolution. -/
theorem c1_required_args_validated_witness :
    ((([("p", JsValue.vStr "v")]) : Bindings).lookup "p").isSome = true :=
  c1_required_args_validated jdNone 0 c1wit ["v"] [("p", .vStr "v")] [] rfl
    ("p", {type := .string})
    (by show ("p", ({type := .string} : ArgumentDef)) ∈
          [("p", ({type := .string} : ArgumentDef))]
        exact List.mem_cons_self _ _)
    rfl rfl

/-! ### Claim C2: flag-shaped token against a required/optional positional -/

/-- One required string positional, no options, handler set. -/
def c2cmdReq : Command := .node "c" [] [] [("p", {type := .string})] [] true

/-- The same positional declared optional with a default, no options. -/
def c2cmdOpt : Command :=
  .node "c" [] []
    [("p", {type := .string, optional := true, defaultValue := some (.vStr "d")})] [] true

/-- Claim C2: with one required string positional and no options, `["--x"]`
fails at the required-positional guard (the `Expected argument <p>, but
received option "--x"` site - the spec's `UnexpectedOption`); with the
positional optional-with-default it falls through to the option block and
fails at the zero-options `Unknown option` site (the spec's
`UnknownOption`), binding nothing. -/
theorem c2_flag_vs_positional :
    runResolve jdNone 0 c2cmdReq ["--x"] = .error (.expectedArgGotOption "p" "--x") ∧
    runResolve jdNone 0 c2cmdOpt ["--x"] = .error (.unknownOptionNoOpts "--x") :=
  ⟨rfl, rfl⟩

/-! ### Claim C3: defaulting binds raw, uncoerced values -/

/-- Command with a time-typed option whose declared default is the string
`"5s"`. -/
def c3cmd : Command :=
  .node "c" [] [] [] [("t", {type := .time, defaultValue := some (.vStr "5s")})] true

/-- Claim C3 (code bug): the defaulting step binds the raw default value
`"5s"` for the time-typed option, while coercing `"5s"` per the declared
`time` kind yields the `Time` value of 5000 milliseconds - the bound value
is not the coerced one, because `coerceArgument(arg.type, arg.defaultValue)`
passes the kind string where the definition object is expected. -/
theorem c3_default_not_coerced :
    runResolve jdNone 0 c3cmd [] = .success [] [("t", .vStr "5s")] ∧
    parseValue jdNone 0 .time "5s" [] = .ok (.vTime "5s" 5000) ∧
    JsValue.vStr "5s" ≠ JsValue.vTime "5s" 5000 := by
  refine ⟨rfl, ?_, fun hcontra => JsValue.noConfusion hcontra⟩
  have hval : ∀ s ∈ [(⟨['5'], [], .s⟩ : DurSeg)], s.valid := by
    intro s hs
    simp only [List.mem_cons, List.not_mem_nil, or_false] at hs
    subst hs
    exact ⟨by simp, by decide, by simp, by decide⟩
  have h := timeMake_duration jdNone 0 [⟨['5'], [], .s⟩] (by simp) hval rfl
  have hd : durTotal [(⟨['5'], [], .s⟩ : DurSeg)] = 5000 := by
    have h5 : digitsToNat ['5'] = 5 := rfl
    have h0 : digitsToNat ([] : List Char) = 0 := rfl
    norm_num [durTotal, DurSeg.value, decValue, h5, h0, unitToMs]
  rw [hd] at h
  unfold parseValue
  rw [show timeMake jdNone 0 "5s" = timeMake jdNone 0 (String.mk (renderSegs
      [(⟨['5'], [], .s⟩ : DurSeg)])) from rfl, h]
  rfl

/-! ### Claim C5: duplicate detection in option registration -/

/-- The node after registering option `"a"` with alias `"x"`. -/
def c5mid : Command :=
  .node "c" [] [] [] [("a", {type := .string, aliasList := ["x"]})] false

/-- Claim C5, counterexample: registering a second option whose canonical
name `"x"` is already in use as the first option's alias does not fail -
the construction succeeds and the node ends up with an option named after
another option's alias. -/
theorem c5_counterexample :
    Command.option (Command.base "c") "a" {type := .string, aliasList := ["x"]} =
      .ok c5mid ∧
    c5mid.option "x" {type := .string} =
      .ok (.node "c" [] [] []
        [("a", {type := .string, aliasList := ["x"]}), ("x", {type := .string})] false) ∧
    "x" ∈ ({type := .string, aliasList := ["x"]} : OptionDef).aliasList :=
  ⟨rfl, rfl, by decide⟩

/-- Claim C5, amended: option registration fails with the duplicate error
exactly when the canonical name is already a key of `optionsDef` - alias
lists are never examined - and consequently every reachable node has
pairwise-distinct canonical option names (but aliases may collide with
names or with each other). -/
theorem c5_duplicate_names_only :
    (∀ (c : Command) (n : String) (d : OptionDef),
      (c.option n d).isOk = true ↔ c.optionsDef.lookup n = none) ∧
    (∀ c : Command, Reachable c → (c.optionsDef.map Prod.fst).Nodup) := by
  constructor
  · intro c n d
    cases c with
    | node nm cs as ad od hh =>
      unfold Command.option
      dsimp only
      by_cases hl : (od.lookup n).isSome
      · rw [if_pos hl]
        constructor
        · intro hcontra
          simp [Except.isOk, Except.toBool] at hcontra
        · intro hnone
          rw [show Command.optionsDef (.node nm cs as ad od hh) = od from rfl] at hnone
          rw [hnone] at hl
          exact absurd hl (by simp)
      · rw [if_neg hl]
        constructor
        · intro _
          show od.lookup n = none
          revert hl
          rcases od.lookup n with _ | v <;> simp
        · intro _
          rfl
  · exact fun c h => reachable_option_names_nodup h

/-- Witness for the amended C5 at concrete nodes. -/
theorem c5_duplicate_names_only_witness :
    ((Command.base "c").option "a" {type := .string}).isOk = true ∧
    (((Command.base "c").optionsDef.map Prod.fst).Nodup) :=
  ⟨(c5_duplicate_names_only.1 (Command.base "c") "a" {type := .string}).mpr rfl,
   c5_duplicate_names_only.2 (Command.base "c") (Reachable.base "c")⟩

/-! ### Claim C7: compound duration coercion -/

/-- Claim C7: for every duration string that is a concatenation of one or
more `<number><unit>` segments with units in `{ms, s, m, h, d, w}` (and
which the external date parser does not recognise - date parsing is
attempted first), time coercion returns the sum over all segments of the
segment's value times the unit's fixed millisecond factor (`durTotal`,
with the factors of `unitToMs`). -/
theorem c7_duration_sum (jd : String → Option ℚ) (now : ℚ) (segs : List DurSeg)
    (h1 : segs ≠ []) (hv : ∀ s ∈ segs, s.valid)
    (hdate : timeParseDate jd now (String.mk (renderSegs segs)) = none) :
    timeMake jd now (String.mk (renderSegs segs)) = .ok (durTotal segs) :=
  timeMake_duration jd now segs h1 hv hdate

/-- Witness for C7: `"1h30m"` coerces to 5400000 milliseconds. -/
theorem c7_duration_sum_witness : timeMake jdNone 0 "1h30m" = .ok 5400000 := by
  have hval : ∀ s ∈ [(⟨['1'], [], .h⟩ : DurSeg), ⟨['3', '0'], [], .m⟩], s.valid := by
    intro s hs
    simp only [List.mem_cons, List.not_mem_nil, or_false] at hs
    rcases hs with rfl | rfl
    · exact ⟨by simp, by decide, by simp, by decide⟩
    · exact ⟨by simp, by decide, by simp, by decide⟩
  have h := c7_duration_sum jdNone 0 [⟨['1'], [], .h⟩, ⟨['3', '0'], [], .m⟩]
    (by simp) hval rfl
  have hd : durTotal [(⟨['1'], [], .h⟩ : DurSeg), ⟨['3', '0'], [], .m⟩] = 5400000 := by
    have h1 : digitsToNat ['1'] = 1 := rfl
    have h30 : digitsToNat ['3', '0'] = 30 := rfl
    have h0 : digitsToNat ([] : List Char) = 0 := rfl
    norm_num [durTotal, DurSeg.value, decValue, h1, h30, h0, unitToMs]
  rw [hd] at h
  exact h

/-! ### Claim C8: byte-size coercion -/

/-- Claim C8: for every byte-size string `<n><unit>` with decimal `n` and a
unit that is a letter-case variant of one of `{b, kb, mb, gb, tb, pb}`,
coercion returns `n * 1024 ^ k` with `k` the unit's exponent; and for every
input whose trimmed text is non-empty and admits no such decomposition
(unit missing or unknown, or the number part malformed), coercion fails
with the invalid-size-format parsing error.  (In this exact-arithmetic
embedding every parsed numeral denotes a finite rational, so the claim's
non-finite-number failure case has no inhabitants.) -/
theorem c8_size_formula :
    (∀ (intDs frac unitRaw : List Char) (u : SizeUnit), intDs ≠ [] →
      (∀ c ∈ intDs, isDigitC c = true) → (∀ c ∈ frac, isDigitC c = true) →
      unitRaw.map toLowerC = u.chars →
      sizeMake (String.mk (renderNum intDs frac ++ unitRaw)) =
        .ok (decValue intDs frac * (1024 : ℚ) ^ u.pow)) ∧
    (∀ s : String, jsTrim s ≠ "" →
      (∀ (intDs frac unitRaw : List Char) (u : SizeUnit), intDs ≠ [] →
        (∀ c ∈ intDs, isDigitC c = true) → (∀ c ∈ frac, isDigitC c = true) →
        unitRaw.map toLowerC = u.chars →
        jsTrimL s.data ≠ renderNum intDs frac ++ unitRaw) →
      sizeMake s = .error (.invalidSizeFormat s)) :=
  ⟨fun intDs frac unitRaw u hi hid hfd hu =>
      sizeMake_render intDs frac unitRaw u hi hid hfd hu,
   fun s h1 h2 => sizeMake_fail s h1 h2⟩

/-- Witness for C8: `"10kb"` coerces to 10240 bytes, and `"xkb"` (no
number) fails with the invalid-size-format error. -/
theorem c8_size_formula_witness :
    sizeMake "10kb" = .ok 10240 ∧
    sizeMake "xkb" = .error (.invalidSizeFormat "xkb") := by
  constructor
  · have h := c8_size_formula.1 ['1', '0'] [] ['k', 'b'] .kb (by simp) (by decide)
      (by simp) (by decide)
    have hv : decValue ['1', '0'] [] * (1024 : ℚ) ^ SizeUnit.pow .kb = 10240 := by
      have h10 : digitsToNat ['1', '0'] = 10 := rfl
      have h0 : digitsToNat ([] : List Char) = 0 := rfl
      norm_num [decValue, h10, h0, SizeUnit.pow]
    rw [hv] at h
    exact h
  · apply c8_size_formula.2 "xkb" (by decide)
    intro intDs frac unitRaw u hi hid hfd hu heq
    rw [show jsTrimL (String.data "xkb") = ['x', 'k', 'b'] from rfl] at heq
    cases intDs with
    | nil => exact hi rfl
    | cons c cs =>
      have hx : c = 'x' := by
        rw [renderNum] at heq
        simp only [List.cons_append] at heq
        exact ((List.cons.injEq .. ).mp heq).1.symm
      subst hx
      have := hid 'x' (List.mem_cons_self 'x' cs)
      exact absurd this (by decide)

/-! ### Claim C9: JSON coercion safety -/

/-- Strict JSON text that contains the token `process` and carries a
`__proto__` key inside an array element. -/
def c9input : String := "\x7b\"x\":\"process\",\"a\":[\x7b\"__proto__\":\"z\"\x7d]\x7d"

/-- Claim C9, counterexample: on syntactically valid strict-JSON input the
forbidden-token test is never consulted, so an input containing the token
`process` coerces successfully; moreover the returned object still holds a
`__proto__` key nested inside an array element, which the sanitiser copies
wholesale. -/
theorem c9_counterexample :
    hasForbiddenToken c9input.data = true ∧
    parseJson c9input = .ok (.obj [("x", .str "process"),
      ("a", .arr [.obj [("__proto__", .str "z")]])]) ∧
    "__proto__" ∈ forbiddenKeys :=
  ⟨rfl, rfl, by decide⟩

/-- Claim C9, amended: the forbidden-token rejection applies exactly on the
object-literal fallback path (it fires whenever strict JSON parsing fails
and the input holds a forbidden token, `process` included); and every
object that coercion returns contains no forbidden key (`__proto__`,
`prototype`, `constructor`) at any depth reachable through object nesting
alone - array elements are returned unsanitised. -/
theorem c9_forbidden_and_sanitised :
    (∀ s : String, jsonParseStrict s = none → hasForbiddenToken s.data = true →
      parseJson s = .error (.invalidObjectSyntax s)) ∧
    (∀ (s : String) (v : Json), parseJson s = .ok v → ObjSafe v) :=
  ⟨fun _ h1 h2 => parseJson_forbidden_fallback h1 h2,
   fun _ _ h => parseJson_safe h⟩

/-- Witness for the amended C9 at concrete inputs. -/
theorem c9_forbidden_and_sanitised_witness :
    parseJson "\x7b process: 1 \x7d" =
      .error (.invalidObjectSyntax "\x7b process: 1 \x7d") ∧
    ObjSafe (.obj [("a", .str "b")]) :=
  ⟨c9_forbidden_and_sanitised.1 "\x7b process: 1 \x7d" rfl rfl,
   c9_forbidden_and_sanitised.2 "\x7b\"a\":\"b\"\x7d" (.obj [("a", .str "b")]) rfl⟩

/-! ### Claim C4: tokens after the end-of-flags marker -/

/-- Command with one optional string positional and a handler. -/
def c4cmd : Command := .node "c" [] [] [("p", {type := .string, optional := true})] [] true

/-- Claim C4, counterexample: the reserved-flag interception runs before
the end-of-flags state is consulted, so `--help` after `--` still
short-circuits to the help render instead of binding as a positional
value. -/
theorem c4_counterexample :
    runResolve jdNone 0 c4cmd ["--", "--help"] = .exitHelp ∧
    runResolve jdNone 0 c4cmd ["--", "--xyz"] = .success [("p", .vStr "--xyz")] [] :=
  ⟨rfl, rfl⟩

/-- Claim C4, amended: once the end-of-flags state is set, every token
whose classifier key is not one of the reserved `version`/`v`/`help`/`h`
keys (and which is not itself the `--` marker) is handled purely as a
positional value, regardless of its shape - the scan step never consults
the option definitions for it; tokens with reserved keys, however, are
still intercepted, as the `--help` conjunct shows. -/
theorem c4_positional_after_eof (jd : String → Option ℚ) (now : ℚ)
    (ad : List (String × ArgumentDef)) (od : List (String × OptionDef))
    (t : String) (rest : List String) (pi f : Nat) (args opts : Bindings)
    (hkey : (parseToken t).key ∉ [some "version", some "v", some "help", some "h"])
    (heof : (parseToken t).isEndOfFlags = false) :
    (scanF jd now ad od (f + 1) (t :: rest) pi true args opts =
      (match ad.get? pi with
       | some (nm, arg) =>
         match coerceArgument jd now arg t arg.choices with
         | .ok v => scanF jd now ad od f rest (pi + 1) true (jsSet args nm v) opts
         | .error e => .err (.parsing e)
       | none =>
         if ad.isEmpty then .err (.unexpectedArgNoArgs t) else .err (.unexpectedArg t))) ∧
    (∀ (rest2 : List String) (pi2 f2 : Nat) (args2 opts2 : Bindings),
      scanF jd now ad od (f2 + 1) ("--help" :: rest2) pi2 true args2 opts2 = .exitHelp) := by
  constructor
  · have h1 : ¬((parseToken t).key = some "version" ∨ (parseToken t).key = some "v") := by
      simp only [List.mem_cons, List.not_mem_nil, or_false] at hkey
      tauto
    have h2 : ¬((parseToken t).key = some "help" ∨ (parseToken t).key = some "h") := by
      simp only [List.mem_cons, List.not_mem_nil, or_false] at hkey
      tauto
    rw [scanF]
    dsimp only
    rw [if_neg h1, if_neg h2, if_neg (by rw [heof]; simp)]
    simp only [Bool.not_true, Bool.and_false, Bool.false_eq_true, if_false]
  · intro rest2 pi2 f2 args2 opts2
    rfl

/-- Witness for the amended C4: after `--`, the flag-shaped token `--foo`
binds as the value of the pending positional. -/
theorem c4_positional_after_eof_witness :
    scanF jdNone 0 [("p", ({type := .string, optional := true} : ArgumentDef))] [] 1
      ["--foo"] 0 true [] [] = .done [("p", JsValue.vStr "--foo")] [] := by
  have h := (c4_positional_after_eof jdNone 0
    [("p", {type := .string, optional := true})] [] "--foo" [] 0 0 [] []
    (by decide) rfl).1
  exact h.trans rfl

/-! ### Claim C6: boolean option binding -/

theorem parseToken_cases (t : String) :
    (parseToken t).isEndOfFlags = false ∨ (parseToken t).isFlag = false := by
  unfold parseToken
  dsimp only
  split_ifs <;> try exact Or.inl rfl
  · exact Or.inr rfl
  · split
    · split_ifs <;> exact Or.inl rfl
    · exact Or.inl rfl

theorem resolveOptKey_ne_nil {od : List (String × OptionDef)} {k key : String}
    {opt : OptionDef} (h : resolveOptKey od k = some (key, opt)) :
    od.isEmpty = false := by
  cases od with
  | nil =>
    exfalso
    unfold resolveOptKey at h
    simp [List.lookup] at h
  | cons a b => rfl

/-- The boolean branch of the option block: the resolved boolean option
binds the raw inline value (uncoerced) or the negation-derived boolean, and
the following token is never consumed. -/
theorem optStep_boolean (jd : String → Option ℚ) (now : ℚ)
    (od : List (String × OptionDef)) (p : ParsedTok) (nextTok : Option String)
    (opts : Bindings) (k key : String) (opt : OptionDef)
    (hkey0 : p.key = some k) (hres : resolveOptKey od k = some (key, opt))
    (htype : opt.type = .boolean) :
    optStep jd now od p nextTok opts =
      .ok (jsSet opts key
        (match p.value with
         | some v => .vStr v
         | none => .vBool (!p.isNegation)), false) := by
  unfold optStep
  rw [if_neg (by rw [resolveOptKey_ne_nil hres]; simp)]
  rw [hkey0]
  dsimp only [Option.getD]
  rw [hres]
  dsimp only
  rw [if_pos htype]

/-- Command with a single boolean option `x` and a handler. -/
def c6cmd : Command := .node "c" [] [] [] [("x", {type := .boolean})] true

/-- Claim C6, counterexample: for the boolean option `x`, the inline form
`--x=yes` binds the raw string `"yes"` - not the boolean coercion of
`"yes"`, which is `true` - because the option block assigns
`parsed.value` unmodified whenever an inline value is present. -/
theorem c6_counterexample :
    runResolve jdNone 0 c6cmd ["--x=yes"] = .success [] [("x", .vStr "yes")] ∧
    parseBoolean "yes" = .ok true ∧
    JsValue.vStr "yes" ≠ JsValue.vBool true :=
  ⟨rfl, rfl, fun hcontra => JsValue.noConfusion hcontra⟩

/-- Claim C6, amended: a token resolved against a boolean-typed option never
consumes the following token; the bare form binds `true`, the negation form
binds `false`, and the inline form `--x=v` binds the raw inline string `v`
unchanged (no boolean coercion, no failure). -/
theorem c6_boolean_binding (jd : String → Option ℚ) (now : ℚ)
    (ad : List (String × ArgumentDef)) (od : List (String × OptionDef))
    (t : String) (rest : List String) (pi f : Nat) (args opts : Bindings)
    (k key : String) (opt : OptionDef)
    (hflag : (parseToken t).isFlag = true)
    (hkey0 : (parseToken t).key = some k)
    (hkres : k ∉ ["version", "v", "help", "h"])
    (hres : resolveOptKey od k = some (key, opt))
    (htype : opt.type = .boolean)
    (hyield : ad.get? pi = none ∨
      ∃ nm arg, ad.get? pi = some (nm, arg) ∧
        (arg.optional = true ∨ arg.defaultValue ≠ none)) :
    scanF jd now ad od (f + 1) (t :: rest) pi false args opts =
      scanF jd now ad od f rest pi false args
        (jsSet opts key
          (match (parseToken t).value with
           | some v => .vStr v
           | none => .vBool (!(parseToken t).isNegation))) := by
  have heof : (parseToken t).isEndOfFlags = false := by
    rcases parseToken_cases t with h | h
    · exact h
    · rw [hflag] at h
      exact absurd h (by simp)
  have hk1 : ¬((parseToken t).key = some "version" ∨ (parseToken t).key = some "v") := by
    rw [hkey0]
    simp only [List.mem_cons, List.not_mem_nil, or_false] at hkres
    simp only [Option.some.injEq]
    tauto
  have hk2 : ¬((parseToken t).key = some "help" ∨ (parseToken t).key = some "h") := by
    rw [hkey0]
    simp only [List.mem_cons, List.not_mem_nil, or_false] at hkres
    simp only [Option.some.injEq]
    tauto
  rw [scanF]
  dsimp only
  rw [if_neg hk1, if_neg hk2, if_neg (by rw [heof]; simp)]
  have hopt := optStep_boolean jd now od (parseToken t) rest.head? opts k key opt
    hkey0 hres htype
  rcases hyield with hnone | ⟨nm, arg, hsome, hyld⟩
  · rw [hnone]
    dsimp only
    rw [if_pos (by rw [hflag]; simp)]
    rw [hopt]
    rfl
  · rw [hsome]
    dsimp only
    rw [if_pos (by rw [hflag]; simp)]
    rw [if_neg (by
      rcases hyld with hy | hy
      · rw [hy]; simp
      · simp only [Bool.and_eq_true, Bool.not_eq_true', Option.isNone_iff_eq_none]
        intro hcontra
        exact hy hcontra.2)]
    rw [hopt]
    rfl

/-- Witness for the amended C6: `--no-x` binds `false` without consuming
the following token. -/
theorem c6_boolean_binding_witness :
    scanF jdNone 0 [] [("x", ({type := .boolean} : OptionDef))] 2
      ["--no-x", "tail"] 0 false [] [] =
    scanF jdNone 0 [] [("x", ({type := .boolean} : OptionDef))] 1 ["tail"] 0 false []
      (jsSet [] "x" (.vBool false)) := by
  have h := c6_boolean_binding jdNone 0 [] [("x", {type := .boolean})] "--no-x"
    ["tail"] 0 1 [] [] "x" "x" {type := .boolean} rfl rfl (by decide) rfl rfl
    (Or.inl rfl)
  exact h

/-! ### Claim C10: choice options and next-token values -/

/-- Command with one choice-typed option `c` (declared choice set supplied
as a parameter) and a handler. -/
def c10cmd (choices : List String) : Command :=
  .node "c" [] [] [] [("c", {type := .choice, choices := choices})] true

/-- Claim C10: for a choice-typed option with any (non-empty) declared
choice set, supplying the value as the following token (`--c value` rather
than `--c=value`) always fails coercion - for every non-empty value,
including members of the declared set - because the next-token call
`coerceOption(opt, next)` omits the declared choices, and the choice parser
accepts only members of the then-empty set (the carried error shows the
empty expected set). -/
theorem c10_choice_next_token (jd : String → Option ℚ) (now : ℚ)
    (choices : List String) (next : String) (h1 : choices ≠ []) (h2 : next ≠ "") :
    runResolve jd now (c10cmd choices) ["--c", next] =
      .error (.parsing (.invalidChoice next [])) := by
  have hstep : ∀ f : Nat,
      scanF jd now [] [("c", {type := .choice, choices := choices})] (f + 2)
        ["--c", next] 0 false [] [] = .err (.parsing (.invalidChoice next [])) := by
    intro f
    rw [show f + 2 = (f + 1) + 1 from rfl]
    rw [scanF]
    dsimp only
    have hp : parseToken "--c" =
        {key := some "c", isFlag := true, original := "--c"} := rfl
    rw [hp]
    dsimp only
    rw [if_neg (by simp), if_neg (by simp), if_neg (by simp)]
    rw [show (([] : List (String × ArgumentDef)).get? 0) = none from rfl]
    dsimp only
    rw [if_pos (by simp)]
    unfold optStep
    rw [if_neg (by simp)]
    dsimp only [Option.getD]
    have hres : resolveOptKey [("c", {type := .choice, choices := choices})] "c" =
        some ("c", {type := .choice, choices := choices}) := rfl
    rw [hres]
    dsimp only
    rw [if_neg (by decide)]
    rw [show (([next] : List String).head?) = some next from rfl]
    dsimp only
    rw [if_neg h2]
    unfold coerceOption parseValue
    dsimp only
    unfold parseChoice
    rw [if_neg (List.not_mem_nil _)]
    rfl
  unfold runResolve
  dsimp only
  have hd : descend (c10cmd choices) ["--c", next] = (c10cmd choices, ["--c", next]) :=
    rfl
  rw [hd]
  dsimp only [c10cmd, Command.argumentsDef, Command.optionsDef]
  rw [show ((["--c", next] : List String).length + 1) = 1 + 2 from rfl]
  rw [hstep 1]

/-- Witness for C10: the value `red` is a member of the declared choice set
`{red, green}` and still fails. -/
theorem c10_choice_next_token_witness :
    runResolve jdNone 0 (c10cmd ["red", "green"]) ["--c", "red"] =
      .error (.parsing (.invalidChoice "red" [])) :=
  c10_choice_next_token jdNone 0 ["red", "green"] "red" (by simp) (by simp)

end Mkly
